import Mathlib

/-!
Verification of the `heap_class` library: a list-like wrapper (`Heap`) around
CPython's `heapq` binary-heap algorithms, with a `max` orientation flag and an
optional key function.

The development is in three layers:
1. `heapq` layer: shallow embedding of the CPython `heapq` functions the
   library imports (`_siftdown`, `_siftup`, `heappush`, `heappop`,
   `heapreplace`, `heappushpop`, `heapify`, and their `_max` variants), over
   lists with a boolean strict comparison `lt`.  Python's dynamic `heap[i]`
   reads are modelled with `getD`-with-default (`gd`); every read performed by
   the algorithms on the inputs they are actually called with is in bounds, so
   the default is never observable.
2. `Heap` class layer: the methods of `heap_class.Heap` from
   `src/heap_class/__init__.py`, with exceptions modelled as `Except`.
3. Claim theorems.
-/

set_option maxHeartbeats 1000000

open List

/-- `heap[i]` for list-backed heaps: `getD` with the `Inhabited` default.
All reads the algorithms perform on their actual call sites are in bounds. -/
def gd {α : Type} [Inhabited α] (l : List α) (i : Nat) : α := l.getD i default

/-- Flip the operands of a comparison.  CPython realises every `_max` heap
primitive as the corresponding min primitive with the two comparison operands
swapped (e.g. `_siftdown` tests `newitem < parent` where `_siftdown_max`
tests `parent < newitem`), which is exactly composition with `flipLt`. -/
def flipLt {α : Type} (lt : α → α → Bool) : α → α → Bool := fun a b => lt b a

/-- CPython `heapq._siftdown` main loop: bubble `newitem` up from `pos`
toward `startpos`, moving parents down while `newitem` precedes them
(`parentpos = (pos - 1) >> 1`, `parent = heap[parentpos]`).  The final write
`heap[pos] = newitem` is performed on both exits. -/
def siftdownLoop {α : Type} [Inhabited α] (lt : α → α → Bool) (newitem : α) :
    List α → Nat → Nat → List α
  | heap, startpos, pos =>
    if h : startpos < pos then
      if lt newitem (gd heap ((pos - 1) / 2)) then
        siftdownLoop lt newitem (heap.set pos (gd heap ((pos - 1) / 2)))
          startpos ((pos - 1) / 2)
      else
        heap.set pos newitem
    else
      heap.set pos newitem
  termination_by _ _ pos => pos
  decreasing_by simp_wf; omega

/-- CPython `heapq._siftdown heap startpos pos`: reads `newitem = heap[pos]`
and runs the bubble-up loop. -/
def siftdown {α : Type} [Inhabited α] (lt : α → α → Bool) (heap : List α)
    (startpos pos : Nat) : List α :=
  siftdownLoop lt (gd heap pos) heap startpos pos

/-- CPython `heapq._siftup` main loop (Floyd's variant): with
`childpos = 2*pos+1` and `rightpos = childpos+1`, set `childpos` to the
smaller child (`rightpos` when `rightpos < endpos and not heap[childpos] <
heap[rightpos]`), move that child up into `pos` and descend, until `pos` has
no child.  Returns the array together with the final (leaf) position; the
caller writes `newitem` there and bubbles it up. -/
def siftupLoop {α : Type} [Inhabited α] (lt : α → α → Bool) (endpos : Nat) :
    List α → Nat → List α × Nat
  | heap, pos =>
    if h : 2 * pos + 1 < endpos then
      if 2 * pos + 2 < endpos ∧ lt (gd heap (2 * pos + 1)) (gd heap (2 * pos + 2)) = false then
        siftupLoop lt endpos (heap.set pos (gd heap (2 * pos + 2))) (2 * pos + 2)
      else
        siftupLoop lt endpos (heap.set pos (gd heap (2 * pos + 1))) (2 * pos + 1)
    else
      (heap, pos)
  termination_by _ pos => endpos - pos
  decreasing_by all_goals simp_wf; omega

/-- CPython `heapq._siftup heap pos`: save `newitem = heap[pos]`, slide the
smaller-child chain up to make a hole at a leaf, put `newitem` in the hole and
bubble it up with `_siftdown heap pos leafpos`. -/
def siftup {α : Type} [Inhabited α] (lt : α → α → Bool) (heap : List α)
    (pos : Nat) : List α :=
  siftdownLoop lt (gd heap pos)
    ((siftupLoop lt heap.length heap pos).1.set
      (siftupLoop lt heap.length heap pos).2 (gd heap pos))
    pos (siftupLoop lt heap.length heap pos).2

/-- CPython `heapq.heappush`: append, then `_siftdown(heap, 0, len(heap)-1)`. -/
def heappush {α : Type} [Inhabited α] (lt : α → α → Bool) (heap : List α)
    (item : α) : List α :=
  siftdown lt (heap ++ [item]) 0 heap.length

/-- CPython `heapq.heappop`: raises `IndexError` (modelled as `none`) on an
empty list; otherwise removes the last element (`lastelt = heap.pop()`), and
if the list is still non-empty swaps `lastelt` into the root and restores the
invariant with `_siftup(heap, 0)`, returning the previous root. -/
def heappop {α : Type} [Inhabited α] (lt : α → α → Bool) :
    List α → Option (α × List α)
  | [] => none
  | x :: xs =>
    match (x :: xs).dropLast with
    | [] => some (x, [])
    | y :: ys => some (gd (y :: ys) 0,
        siftup lt ((y :: ys).set 0 ((x :: xs).getLast (by simp))) 0)

/-- CPython `heapq.heapreplace`: pop and return the root (raising on an empty
list, modelled as `none`), placing `item` at the root and sifting it down. -/
def heapreplace {α : Type} [Inhabited α] (lt : α → α → Bool) (heap : List α)
    (item : α) : Option (α × List α) :=
  match heap with
  | [] => none
  | _ :: _ => some (gd heap 0, siftup lt (heap.set 0 item) 0)

/-- CPython `heapq.heappushpop`: if the heap is non-empty and its root
precedes `item` (`heap and heap[0] < item`), swap `item` with the root and
sift; otherwise return `item` unchanged.  Never fails, even on an empty heap. -/
def heappushpop {α : Type} [Inhabited α] (lt : α → α → Bool) (heap : List α)
    (item : α) : α × List α :=
  match heap with
  | [] => (item, heap)
  | _ :: _ =>
    if lt (gd heap 0) item then
      (gd heap 0, siftup lt (heap.set 0 item) 0)
    else
      (item, heap)

/-- Loop of CPython `heapq.heapify`:
`for i in reversed(range(n//2)): _siftup(x, i)`. -/
def heapifyLoop {α : Type} [Inhabited α] (lt : α → α → Bool) :
    List α → Nat → List α
  | x, 0 => x
  | x, i + 1 => heapifyLoop lt (siftup lt x i) i

/-- CPython `heapq.heapify`. -/
def heapify {α : Type} [Inhabited α] (lt : α → α → Bool) (x : List α) : List α :=
  heapifyLoop lt x (x.length / 2)

/-- CPython `heapq._heappop_max`: `_heappop` with `_siftup_max`, i.e. the
comparison operands swapped throughout. -/
def heappop_max {α : Type} [Inhabited α] (lt : α → α → Bool) (heap : List α) :
    Option (α × List α) :=
  heappop (flipLt lt) heap

/-- CPython `heapq._heapreplace_max`. -/
def heapreplace_max {α : Type} [Inhabited α] (lt : α → α → Bool) (heap : List α)
    (item : α) : Option (α × List α) :=
  heapreplace (flipLt lt) heap item

/-- CPython `heapq._heapify_max`. -/
def heapify_max {α : Type} [Inhabited α] (lt : α → α → Bool) (x : List α) :
    List α :=
  heapify (flipLt lt) x

/-- `heap_class.heappush_max` (src/heap_class/__init__.py lines 24-26):
append then `_siftdown_max(heap, 0, len(heap)-1)`; `_siftdown_max` is
`_siftdown` with the comparison operands swapped. -/
def heappush_max {α : Type} [Inhabited α] (lt : α → α → Bool) (heap : List α)
    (item : α) : List α :=
  heappush (flipLt lt) heap item

/-- `heap_class.heappushpop_max` (src/heap_class/__init__.py lines 29-39).
`cLang` models the module-level `C_LANGUAGE_HEAP` flag (true on standard
CPython, where `_heapq` provides the builtin `_heappop_max`).  In that branch
the source runs `heappush_max(heap, item)` and then `return heappop_max(item)`
— popping from the pushed *item*, not from the heap — which raises a
`TypeError` for non-list items and leaves the pushed item in the heap; this is
modelled as an `Except.error` result paired with the mutated heap.  The
pure-Python branch swaps `item` with the root only when `heap[0] > item`. -/
def heappushpop_max {α : Type} [Inhabited α] (cLang : Bool)
    (lt : α → α → Bool) (heap : List α) (item : α) :
    Except String α × List α :=
  if cLang then
    (Except.error "TypeError: argument of _heappop_max is not a list",
      heappush_max lt heap item)
  else
    match heap with
    | [] => (Except.ok item, heap)
    | _ :: _ =>
      if lt item (gd heap 0) then
        (Except.ok (gd heap 0), siftup (flipLt lt) (heap.set 0 item) 0)
      else
        (Except.ok item, heap)

theorem siftdownLoop_length {α : Type} [Inhabited α] (lt : α → α → Bool)
    (ni : α) (heap : List α) (s p : Nat) :
    (siftdownLoop lt ni heap s p).length = heap.length := by
  induction heap, s, p using siftdownLoop.induct lt ni with
  | case1 heap s p h hlt ih => rw [siftdownLoop]; simp [h, hlt] at ih ⊢; omega
  | case2 heap s p h hlt => rw [siftdownLoop]; simp [h, hlt]
  | case3 heap s p h => rw [siftdownLoop]; simp [h]

theorem siftdown_length {α : Type} [Inhabited α] (lt : α → α → Bool)
    (heap : List α) (s p : Nat) :
    (siftdown lt heap s p).length = heap.length :=
  siftdownLoop_length lt _ heap s p

theorem siftupLoop_length {α : Type} [Inhabited α] (lt : α → α → Bool)
    (e : Nat) (heap : List α) (p : Nat) :
    (siftupLoop lt e heap p).1.length = heap.length := by
  induction heap, p using siftupLoop.induct lt e with
  | case1 heap p h hc ih => rw [siftupLoop]; simp [h, hc] at ih ⊢; omega
  | case2 heap p h hc ih => rw [siftupLoop]; simp [h, hc] at ih ⊢; omega
  | case3 heap p h => rw [siftupLoop]; simp [h]

theorem siftup_length {α : Type} [Inhabited α] (lt : α → α → Bool)
    (heap : List α) (p : Nat) :
    (siftup lt heap p).length = heap.length := by
  unfold siftup
  rw [siftdownLoop_length, List.length_set, siftupLoop_length]

theorem heapifyLoop_length {α : Type} [Inhabited α] (lt : α → α → Bool)
    (x : List α) (k : Nat) :
    (heapifyLoop lt x k).length = x.length := by
  induction k generalizing x with
  | zero => rfl
  | succ i ih => rw [heapifyLoop, ih, siftup_length]

theorem heapify_length {α : Type} [Inhabited α] (lt : α → α → Bool)
    (x : List α) : (heapify lt x).length = x.length :=
  heapifyLoop_length lt x _

/-- `heappop` on a two-or-more element list: returns the root and sifts the
last element down from the root of the shortened list. -/
theorem heappop_cons_cons {α : Type} [Inhabited α] (lt : α → α → Bool)
    (x y : α) (zs : List α) :
    heappop lt (x :: y :: zs) =
      some (x, siftup lt ((x :: (y :: zs).dropLast).set 0
        ((y :: zs).getLast (by simp))) 0) := by
  rw [heappop]
  simp [gd, List.getLast]

theorem heappop_length {α : Type} [Inhabited α] (lt : α → α → Bool)
    (heap : List α) (v : α) (rest : List α)
    (h : heappop lt heap = some (v, rest)) :
    rest.length + 1 = heap.length := by
  match heap with
  | [] => simp [heappop] at h
  | [x] =>
    rw [heappop] at h
    simp only [List.dropLast_single, Option.some_inj, Prod.mk.injEq] at h
    simp [← h.2]
  | x :: y :: zs =>
    rw [heappop_cons_cons] at h
    simp only [Option.some_inj, Prod.mk.injEq] at h
    rw [← h.2, siftup_length, List.length_set]
    simp

/-- Draining a heap by repeated `heappop` calls: the loop of
`Heap._iter_with_key` / `Heap.__iter__`, which pops a disposable copy of the
buffer until it is empty (`while temp_heap: yield heappop(temp_heap)`). -/
def drain {α : Type} [Inhabited α] (lt : α → α → Bool) (heap : List α) :
    List α :=
  match h : heappop lt heap with
  | none => []
  | some (v, rest) => v :: drain lt rest
  termination_by heap.length
  decreasing_by
    have := heappop_length lt heap v rest h
    omega

theorem heappop_cons_ne_none {α : Type} [Inhabited α] (lt : α → α → Bool)
    (x : α) (xs : List α) : heappop lt (x :: xs) ≠ none := by
  rw [heappop]
  split <;> simp

theorem drain_nil {α : Type} [Inhabited α] (lt : α → α → Bool) :
    drain lt ([] : List α) = [] := by
  rw [drain]
  split
  · rfl
  · next v rest hs => simp [heappop] at hs

theorem drain_cons {α : Type} [Inhabited α] (lt : α → α → Bool)
    (heap : List α) (v : α) (rest : List α)
    (h : heappop lt heap = some (v, rest)) :
    drain lt heap = v :: drain lt rest := by
  rw [drain]
  split
  · next hn => rw [h] at hn; exact absurd hn (by simp)
  · next v' rest' hs =>
    rw [h] at hs
    simp only [Option.some_inj, Prod.mk.injEq] at hs
    rw [hs.1, hs.2]

theorem drain_length {α : Type} [Inhabited α] (lt : α → α → Bool)
    (heap : List α) : (drain lt heap).length = heap.length := by
  induction heap using drain.induct lt with
  | case1 heap h =>
    cases heap with
    | nil => simp [drain_nil]
    | cons x xs => exact absurd h (heappop_cons_ne_none lt x xs)
  | case2 heap v rest h ih =>
    rw [drain_cons lt heap v rest h]
    have := heappop_length lt heap v rest h
    simp [ih]; omega

theorem gd_set_self {α : Type} [Inhabited α] {l : List α} {i : Nat} {a : α}
    (h : i < l.length) : gd (l.set i a) i = a := by
  simp [gd, List.getD_eq_getElem?_getD, List.getElem?_set_self h]

theorem gd_set_ne {α : Type} [Inhabited α] {l : List α} {i j : Nat} {a : α}
    (h : i ≠ j) : gd (l.set i a) j = gd l j := by
  simp [gd, List.getD_eq_getElem?_getD, List.getElem?_set_ne h]

theorem gd_append_left {α : Type} [Inhabited α] {l m : List α} {i : Nat}
    (h : i < l.length) : gd (l ++ m) i = gd l i :=
  List.getD_append l m default i h

theorem gd_append_len {α : Type} [Inhabited α] (l : List α) (a : α) :
    gd (l ++ [a]) l.length = a := by
  simp [gd, List.getD_eq_getElem?_getD, List.getElem?_append]

theorem gd_dropLast {α : Type} [Inhabited α] {l : List α} {i : Nat}
    (h : i < l.length - 1) : gd l.dropLast i = gd l i := by
  have hi : i < l.length := by omega
  simp [gd, List.getD_eq_getElem?_getD, List.getElem?_dropLast, h,
    List.getElem?_eq_getElem hi]

theorem set_gd_self {α : Type} [Inhabited α] {l : List α} {i : Nat}
    (h : i < l.length) : l.set i (gd l i) = l := by
  apply List.ext_getElem?
  intro j
  rw [List.getElem?_set]
  split
  · next hij =>
    subst hij
    simp [h, gd, List.getD_eq_getElem?_getD, List.getElem?_eq_getElem h]
  · rfl

theorem perm_set {α : Type} [Inhabited α] {l : List α} {i : Nat} (a : α)
    (h : i < l.length) : gd l i :: l.set i a ~ a :: l := by
  induction l generalizing i with
  | nil => simp at h
  | cons b bs ih =>
    cases i with
    | zero => simpa [gd] using List.Perm.swap a b bs
    | succ k =>
      have hk : k < bs.length := by simpa using h
      have step : gd (b :: bs) (k + 1) :: b :: bs.set k a ~ b :: a :: bs := by
        calc gd (b :: bs) (k + 1) :: b :: bs.set k a
            ~ b :: gd (b :: bs) (k + 1) :: bs.set k a := List.Perm.swap _ _ _
          _ ~ b :: a :: bs := by
              apply List.Perm.cons
              simpa [gd] using ih hk
      calc gd (b :: bs) (k + 1) :: (b :: bs).set (k + 1) a
          ~ b :: a :: bs := by simpa using step
        _ ~ a :: b :: bs := List.Perm.swap _ _ _

theorem set_set_perm {α : Type} [Inhabited α] {l : List α} {i j : Nat} (x : α)
    (hi : i < l.length) (hj : j < l.length) (hne : i ≠ j) :
    (l.set i (gd l j)).set j x ~ l.set i x := by
  have hjl : j < (l.set i (gd l j)).length := by simpa using hj
  have h1 : gd l j :: (l.set i (gd l j)).set j x ~ x :: l.set i (gd l j) := by
    have := perm_set (l := l.set i (gd l j)) x hjl
    rwa [gd_set_ne hne] at this
  have h2 : gd l i :: l.set i (gd l j) ~ gd l j :: l := perm_set _ hi
  have h3 : gd l i :: l.set i x ~ x :: l := perm_set _ hi
  have chain : gd l i :: gd l j :: (l.set i (gd l j)).set j x ~
      gd l i :: gd l j :: l.set i x := by
    calc gd l i :: gd l j :: (l.set i (gd l j)).set j x
        ~ gd l i :: x :: l.set i (gd l j) := List.Perm.cons _ h1
      _ ~ x :: gd l i :: l.set i (gd l j) := List.Perm.swap _ _ _
      _ ~ x :: gd l j :: l := List.Perm.cons _ h2
      _ ~ gd l j :: x :: l := List.Perm.swap _ _ _
      _ ~ gd l j :: gd l i :: l.set i x := List.Perm.cons _ h3.symm
      _ ~ gd l i :: gd l j :: l.set i x := List.Perm.swap _ _ _
  exact (chain.cons_inv).cons_inv

theorem siftdownLoop_perm {α : Type} [Inhabited α] (lt : α → α → Bool)
    (ni : α) (heap : List α) (s p : Nat) (hp : p < heap.length) :
    (siftdownLoop lt ni heap s p).Perm (heap.set p ni) := by
  induction heap, s, p using siftdownLoop.induct lt ni with
  | case1 heap s p h hlt ih =>
    rw [siftdownLoop]
    simp only [dif_pos h, if_pos hlt]
    have hpp : (p - 1) / 2 < heap.length := by omega
    have hpp' : (p - 1) / 2 < (heap.set p (gd heap ((p - 1) / 2))).length := by
      simpa using hpp
    refine (ih hpp').trans ?_
    exact set_set_perm ni hp hpp (by omega)
  | case2 heap s p h hlt =>
    rw [siftdownLoop]
    simp only [dif_pos h, if_neg hlt]
    exact List.Perm.refl _
  | case3 heap s p h =>
    rw [siftdownLoop]
    simp only [dif_neg h]
    exact List.Perm.refl _

theorem siftupLoop_pos_bounds {α : Type} [Inhabited α] (lt : α → α → Bool)
    (e : Nat) (heap : List α) (p : Nat) (hp : p < e) :
    p ≤ (siftupLoop lt e heap p).2 ∧ (siftupLoop lt e heap p).2 < e := by
  induction heap, p using siftupLoop.induct lt e with
  | case1 heap p h hc ih =>
    rw [siftupLoop]
    simp only [dif_pos h, if_pos hc]
    have := ih (by omega)
    omega
  | case2 heap p h hc ih =>
    rw [siftupLoop]
    simp only [dif_pos h, if_neg hc]
    have := ih (by omega)
    omega
  | case3 heap p h =>
    rw [siftupLoop]
    simp only [dif_neg h]
    omega

theorem siftupLoop_set_perm {α : Type} [Inhabited α] (lt : α → α → Bool)
    (e : Nat) (heap : List α) (p : Nat) (hp : p < e) (he : e = heap.length)
    (x : α) :
    ((siftupLoop lt e heap p).1.set (siftupLoop lt e heap p).2 x).Perm
      (heap.set p x) := by
  induction heap, p using siftupLoop.induct lt e with
  | case1 heap p h hc ih =>
    rw [siftupLoop]
    simp only [dif_pos h, if_pos hc]
    refine (ih (by omega) (by simpa using he)).trans ?_
    exact set_set_perm x (by omega) (by omega) (by omega)
  | case2 heap p h hc ih =>
    rw [siftupLoop]
    simp only [dif_pos h, if_neg hc]
    refine (ih (by omega) (by simpa using he)).trans ?_
    exact set_set_perm x (by omega) (by omega) (by omega)
  | case3 heap p h =>
    rw [siftupLoop]
    simp only [dif_neg h]
    exact List.Perm.refl _

theorem siftup_perm {α : Type} [Inhabited α] (lt : α → α → Bool)
    (heap : List α) (p : Nat) (hp : p < heap.length) :
    (siftup lt heap p).Perm heap := by
  unfold siftup
  have hf := siftupLoop_pos_bounds lt heap.length heap p hp
  have hflen : (siftupLoop lt heap.length heap p).2 <
      ((siftupLoop lt heap.length heap p).1.set
        (siftupLoop lt heap.length heap p).2 (gd heap p)).length := by
    rw [List.length_set, siftupLoop_length]
    exact hf.2
  refine (siftdownLoop_perm lt _ _ p _ hflen).trans ?_
  rw [List.set_set]
  refine (siftupLoop_set_perm lt heap.length heap p hp rfl (gd heap p)).trans ?_
  rw [set_gd_self hp]

theorem heappush_perm {α : Type} [Inhabited α] (lt : α → α → Bool)
    (heap : List α) (x : α) :
    (heappush lt heap x).Perm (heap ++ [x]) := by
  unfold heappush siftdown
  have hn : heap.length < (heap ++ [x]).length := by simp
  refine (siftdownLoop_perm lt _ _ 0 _ hn).trans ?_
  rw [set_gd_self hn]

theorem heappop_perm {α : Type} [Inhabited α] (lt : α → α → Bool)
    (heap : List α) (v : α) (rest : List α)
    (h : heappop lt heap = some (v, rest)) :
    (v :: rest).Perm heap := by
  match heap with
  | [] => simp [heappop] at h
  | [x] =>
    rw [heappop] at h
    simp only [List.dropLast_single, Option.some_inj, Prod.mk.injEq] at h
    rw [← h.1, ← h.2]
  | x :: y :: zs =>
    rw [heappop_cons_cons] at h
    simp only [Option.some_inj, Prod.mk.injEq] at h
    have hne : (x :: y :: zs) ≠ [] := by simp
    have hd : (x :: y :: zs).dropLast = x :: (y :: zs).dropLast := by simp
    have hg : (y :: zs).getLast (by simp) = (x :: y :: zs).getLast hne := by
      simp [List.getLast]
    have h0 : 0 < (x :: (y :: zs).dropLast).length := by simp
    have hrest : rest.Perm ((x :: (y :: zs).dropLast).set 0
        ((y :: zs).getLast (by simp))) := by
      rw [← h.2]
      exact siftup_perm lt _ 0 (by simpa using h0)
    calc v :: rest
        ~ x :: (x :: (y :: zs).dropLast).set 0 ((y :: zs).getLast (by simp)) := by
          rw [← h.1]; exact List.Perm.cons x hrest
      _ ~ (y :: zs).getLast (by simp) :: (x :: (y :: zs).dropLast) := by
          have := perm_set (l := x :: (y :: zs).dropLast)
            ((y :: zs).getLast (by simp)) h0
          simpa [gd] using this
      _ ~ (x :: (y :: zs).dropLast) ++ [(y :: zs).getLast (by simp)] :=
          (List.perm_append_singleton _ _).symm
      _ = x :: y :: zs := by
          rw [← hd, hg, List.dropLast_append_getLast hne]

theorem heapreplace_perm {α : Type} [Inhabited α] (lt : α → α → Bool)
    (heap : List α) (item : α) (v : α) (rest : List α)
    (h : heapreplace lt heap item = some (v, rest)) :
    (v :: rest).Perm (item :: heap) := by
  match heap with
  | [] => simp [heapreplace] at h
  | x :: xs =>
    rw [heapreplace] at h
    simp only [Option.some_inj, Prod.mk.injEq] at h
    have h0 : 0 < (x :: xs).length := by simp
    have hrest : rest.Perm ((x :: xs).set 0 item) := by
      rw [← h.2]
      exact siftup_perm lt _ 0 (by simpa using h0)
    calc v :: rest
        ~ gd (x :: xs) 0 :: (x :: xs).set 0 item := by
          rw [← h.1]; exact List.Perm.cons _ hrest
      _ ~ item :: x :: xs := perm_set item h0

theorem heappushpop_perm {α : Type} [Inhabited α] (lt : α → α → Bool)
    (heap : List α) (item : α) :
    ((heappushpop lt heap item).1 :: (heappushpop lt heap item).2).Perm
      (item :: heap) := by
  match heap with
  | [] => rw [heappushpop]
  | x :: xs =>
    rw [heappushpop]
    split
    · next hlt =>
      have h0 : 0 < (x :: xs).length := by simp
      refine List.Perm.trans (List.Perm.cons _ (siftup_perm lt _ 0 (by simpa using h0))) ?_
      exact perm_set item h0
    · next hlt => exact List.Perm.refl _

theorem heapifyLoop_perm {α : Type} [Inhabited α] (lt : α → α → Bool)
    (x : List α) (k : Nat) (hk : k ≤ x.length) :
    (heapifyLoop lt x k).Perm x := by
  induction k generalizing x with
  | zero => exact List.Perm.refl _
  | succ i ih =>
    rw [heapifyLoop]
    have hi : i < x.length := by omega
    refine (ih _ ?_).trans (siftup_perm lt x i hi)
    rw [siftup_length]; omega

theorem heapify_perm {α : Type} [Inhabited α] (lt : α → α → Bool)
    (x : List α) : (heapify lt x).Perm x :=
  heapifyLoop_perm lt x _ (by omega)

theorem drain_perm {α : Type} [Inhabited α] (lt : α → α → Bool)
    (heap : List α) : (drain lt heap).Perm heap := by
  induction heap using drain.induct lt with
  | case1 heap h =>
    cases heap with
    | nil => simp [drain_nil]
    | cons x xs => exact absurd h (heappop_cons_ne_none lt x xs)
  | case2 heap v rest h ih =>
    rw [drain_cons lt heap v rest h]
    exact (List.Perm.cons v ih).trans (heappop_perm lt heap v rest h)

/-- The binary-heap invariant of the spec, scoped to parents at or above
index `s`: every parent-child edge whose parent index `(c-1)/2` is at least
`s` is ordered (the child does not precede the parent under `lt`).
`heapFrom lt l 0` is the full invariant. -/
def heapFrom {α : Type} [Inhabited α] (lt : α → α → Bool) (l : List α)
    (s : Nat) : Prop :=
  ∀ c, 0 < c → c < l.length → s ≤ (c - 1) / 2 →
    lt (gd l c) (gd l ((c - 1) / 2)) = false

/-- The spec's heap invariant: for every non-root position `c`, the entry at
`c` does not precede (under the effective comparison) the entry at its parent
position `⌊(c-1)/2⌋`. -/
def heapProp {α : Type} [Inhabited α] (lt : α → α → Bool) (l : List α) : Prop :=
  heapFrom lt l 0

/-- The laws of a strict total order, stated for a boolean comparison.  They
hold for `fun a b => decide (a < b)` over any linear order, which is how
Python's `<` behaves on the totally ordered values the library supports. -/
structure LtLaws {α : Type} (lt : α → α → Bool) : Prop where
  irrefl : ∀ a, lt a a = false
  asymm : ∀ a b, lt a b = true → lt b a = false
  nlt_trans : ∀ a b c, lt a b = false → lt b c = false → lt a c = false
  nlt_antisymm : ∀ a b, lt a b = false → lt b a = false → a = b

theorem LtLaws.flip {α : Type} {lt : α → α → Bool} (L : LtLaws lt) :
    LtLaws (flipLt lt) where
  irrefl a := L.irrefl a
  asymm a b h := L.asymm b a h
  nlt_trans a b c h1 h2 := L.nlt_trans c b a h2 h1
  nlt_antisymm a b h1 h2 := (L.nlt_antisymm b a h1 h2).symm

theorem LtLaws.lt_of_lt_of_nlt {α : Type} {lt : α → α → Bool} (L : LtLaws lt)
    {a b c : α} (h1 : lt a b = true) (h2 : lt c b = false) :
    lt a c = true := by
  cases hac : lt a c with
  | true => rfl
  | false => rw [L.nlt_trans a c b hac h2] at h1; cases h1

theorem LtLaws.nlt_of_lt_of_nlt {α : Type} {lt : α → α → Bool} (L : LtLaws lt)
    {a b c : α} (h1 : lt a b = true) (h2 : lt c b = false) :
    lt c a = false :=
  L.asymm a c (L.lt_of_lt_of_nlt h1 h2)

theorem ltb_laws {α : Type} [LinearOrder α] :
    LtLaws (fun a b : α => decide (a < b)) where
  irrefl a := by simp
  asymm a b h := by simp at h ⊢; exact le_of_lt h
  nlt_trans a b c h1 h2 := by simp at h1 h2 ⊢; exact le_trans h2 h1
  nlt_antisymm a b h1 h2 := by simp at h1 h2; exact le_antisymm h2 h1

/-- `isAnc s i`: index `s` is an ancestor (or equal) of index `i` in the
implicit binary tree with parent map `i ↦ (i-1)/2`. -/
def isAnc (s : Nat) : Nat → Bool
  | i => if i ≤ s then i == s else isAnc s ((i - 1) / 2)
  termination_by i => i
  decreasing_by omega

theorem isAnc_self (s : Nat) : isAnc s s = true := by
  rw [isAnc]; simp

theorem isAnc_le {s : Nat} : ∀ {i : Nat}, isAnc s i = true → s ≤ i := by
  intro i
  induction i using Nat.strong_induction_on with
  | _ i ih =>
    intro h
    rw [isAnc] at h
    by_cases hle : i ≤ s
    · rw [if_pos hle] at h; simp at h; omega
    · omega

theorem isAnc_par {s i : Nat} (hi : s < i) (h : isAnc s i = true) :
    isAnc s ((i - 1) / 2) = true := by
  rw [isAnc, if_neg (by omega)] at h
  exact h

theorem isAnc_child {s i c : Nat} (h : isAnc s i = true)
    (hc : c = 2 * i + 1 ∨ c = 2 * i + 2) : isAnc s c = true := by
  have hs := isAnc_le h
  have hpar : (c - 1) / 2 = i := by omega
  rw [isAnc, if_neg (by omega), hpar]
  exact h

theorem isAnc_zero (i : Nat) : isAnc 0 i = true := by
  induction i using Nat.strong_induction_on with
  | _ i ih =>
    rw [isAnc]
    by_cases hle : i ≤ 0
    · rw [if_pos hle]; simp; omega
    · rw [if_neg hle]; exact ih _ (by omega)

/-- Invariant correctness of the CPython bubble-up loop (`_siftdown`'s while
loop): if all edges with parent at or above `s` are ordered except those
touching the hole `p`, the hole's children are at or above `ni`, and (when
the hole is not at `s`) the hole's children are at or above the hole's
parent, then writing `ni` into the hole and bubbling it up yields an array
satisfying `heapFrom _ _ s`. -/
theorem siftdownLoop_heapFrom {α : Type} [Inhabited α] {lt : α → α → Bool}
    (L : LtLaws lt) (ni : α) :
    ∀ (heap : List α) (s p : Nat), p < heap.length → isAnc s p = true →
    (∀ c, 0 < c → c < heap.length → s ≤ (c - 1) / 2 → c ≠ p →
       (c - 1) / 2 ≠ p → lt (gd heap c) (gd heap ((c - 1) / 2)) = false) →
    (∀ c, 0 < c → c < heap.length → (c - 1) / 2 = p →
       lt (gd heap c) ni = false) →
    (s < p → ∀ c, 0 < c → c < heap.length → (c - 1) / 2 = p →
       lt (gd heap c) (gd heap ((p - 1) / 2)) = false) →
    heapFrom lt (siftdownLoop lt ni heap s p) s := by
  intro heap s p
  induction heap, s, p using siftdownLoop.induct lt ni with
  | case1 heap s p h hlt ih =>
    intro hp ha B1 B1b B2
    rw [siftdownLoop]
    simp only [dif_pos h, if_pos hlt]
    have hp1 : 1 ≤ p := by omega
    have hpp : (p - 1) / 2 < p := by omega
    have ha' : isAnc s ((p - 1) / 2) = true := isAnc_par h ha
    have hspp : s ≤ (p - 1) / 2 := isAnc_le ha'
    apply ih
    · simp only [List.length_set]; omega
    · exact ha'
    · -- B1 for the new state
      intro c hc0 hclen hsc hcp hparp
      simp only [List.length_set] at hclen
      by_cases hc_p : c = p
      · subst hc_p; exact absurd rfl hparp
      · by_cases hpar_p : (c - 1) / 2 = p
        · rw [gd_set_ne (by omega), hpar_p, gd_set_self hp]
          exact B2 h c hc0 hclen hpar_p
        · rw [gd_set_ne (by omega), gd_set_ne (by omega)]
          exact B1 c hc0 hclen hsc hc_p hpar_p
    · -- children of the new hole are at or above ni
      intro c hc0 hclen hparc
      simp only [List.length_set] at hclen
      by_cases hc_p : c = p
      · subst hc_p
        rw [gd_set_self hp]
        exact L.asymm _ _ hlt
      · rw [gd_set_ne (by omega)]
        have hB1 : lt (gd heap c) (gd heap ((c - 1) / 2)) = false := by
          apply B1 c hc0 hclen (by omega) hc_p (by omega)
        rw [hparc] at hB1
        exact L.nlt_of_lt_of_nlt hlt hB1
    · -- children of the new hole are at or above its parent
      intro hs' c hc0 hclen hparc
      simp only [List.length_set] at hclen
      have hpp0 : 0 < (p - 1) / 2 := by omega
      have happp : isAnc s (((p - 1) / 2 - 1) / 2) = true := isAnc_par hs' ha'
      have hsppp : s ≤ ((p - 1) / 2 - 1) / 2 := isAnc_le happp
      have hpppp : ((p - 1) / 2 - 1) / 2 < (p - 1) / 2 := by omega
      have hBPP : lt (gd heap ((p - 1) / 2))
          (gd heap (((p - 1) / 2 - 1) / 2)) = false := by
        apply B1 _ hpp0 (by omega) hsppp (by omega) (by omega)
      by_cases hc_p : c = p
      · subst hc_p
        rw [gd_set_self hp, gd_set_ne (by omega)]
        exact hBPP
      · rw [gd_set_ne (by omega), gd_set_ne (by omega)]
        have hB1 : lt (gd heap c) (gd heap ((c - 1) / 2)) = false := by
          apply B1 c hc0 hclen (by omega) hc_p (by omega)
        rw [hparc] at hB1
        exact L.nlt_trans _ _ _ hB1 hBPP
  | case2 heap s p h hlt =>
    intro hp ha B1 B1b B2
    rw [siftdownLoop]
    simp only [dif_pos h, if_neg hlt]
    rw [Bool.not_eq_true] at hlt
    intro c hc0 hclen hsc
    simp only [List.length_set] at hclen
    by_cases hc_p : c = p
    · subst hc_p
      rw [gd_set_self hp, gd_set_ne (by omega)]
      exact hlt
    · by_cases hpar_p : (c - 1) / 2 = p
      · rw [gd_set_ne (by omega), hpar_p, gd_set_self hp]
        exact B1b c hc0 hclen hpar_p
      · rw [gd_set_ne (by omega), gd_set_ne (by omega)]
        exact B1 c hc0 hclen hsc hc_p hpar_p
  | case3 heap s p h =>
    intro hp ha B1 B1b B2
    rw [siftdownLoop]
    simp only [dif_neg h]
    have hps : p = s := by
      have := isAnc_le ha
      omega
    intro c hc0 hclen hsc
    simp only [List.length_set] at hclen
    by_cases hc_p : c = p
    · exfalso; omega
    · by_cases hpar_p : (c - 1) / 2 = p
      · rw [gd_set_ne (by omega), hpar_p, gd_set_self hp]
        exact B1b c hc0 hclen hpar_p
      · rw [gd_set_ne (by omega), gd_set_ne (by omega)]
        exact B1 c hc0 hclen hsc hc_p hpar_p

/-- Invariant correctness of the CPython Floyd descend loop (`_siftup`'s
while loop): sliding the chain of smaller children up into the hole keeps all
edges with parent at or above `s` ordered except those touching the hole,
keeps the hole's children at or above the hole's parent, and ends with the
hole at a leaf.  The conclusions are exactly the premises of
`siftdownLoop_heapFrom` with a leaf hole (so its children conditions are
vacuous). -/
theorem siftupLoop_spec {α : Type} [Inhabited α] {lt : α → α → Bool}
    (L : LtLaws lt) (e : Nat) (s : Nat) :
    ∀ (heap : List α) (p : Nat), e = heap.length → p < e → isAnc s p = true →
    (∀ c, 0 < c → c < e → s ≤ (c - 1) / 2 → c ≠ p → (c - 1) / 2 ≠ p →
       lt (gd heap c) (gd heap ((c - 1) / 2)) = false) →
    (s < p → ∀ c, 0 < c → c < e → (c - 1) / 2 = p →
       lt (gd heap c) (gd heap ((p - 1) / 2)) = false) →
    isAnc s (siftupLoop lt e heap p).2 = true ∧
    e ≤ 2 * (siftupLoop lt e heap p).2 + 1 ∧
    (∀ c, 0 < c → c < e → s ≤ (c - 1) / 2 → c ≠ (siftupLoop lt e heap p).2 →
       (c - 1) / 2 ≠ (siftupLoop lt e heap p).2 →
       lt (gd (siftupLoop lt e heap p).1 c)
         (gd (siftupLoop lt e heap p).1 ((c - 1) / 2)) = false) ∧
    (s < (siftupLoop lt e heap p).2 → ∀ c, 0 < c → c < e →
       (c - 1) / 2 = (siftupLoop lt e heap p).2 →
       lt (gd (siftupLoop lt e heap p).1 c)
         (gd (siftupLoop lt e heap p).1
           (((siftupLoop lt e heap p).2 - 1) / 2)) = false) := by
  intro heap p
  induction heap, p using siftupLoop.induct lt e with
  | case1 heap p h hc ih =>
    intro he hp ha D1 D2
    rw [siftupLoop]
    simp only [dif_pos h, if_pos hc]
    have hsp : s ≤ p := isAnc_le ha
    apply ih
    · simpa using he
    · omega
    · exact isAnc_child ha (Or.inr rfl)
    · -- D1 for the new state, hole at 2p+2
      intro c hc0 hce hsc hcne hparne
      have hpar22 : (2 * p + 2 - 1) / 2 = p := by omega
      by_cases hc_p : c = p
      · subst hc_p
        have hc1 : 1 ≤ c := hc0
        rw [gd_set_self (by omega), gd_set_ne (by omega)]
        exact D2 (by omega) (2 * c + 2) (by omega) (by omega) hpar22
      · by_cases hpar_p : (c - 1) / 2 = p
        · have hc21 : c = 2 * p + 1 := by omega
          subst hc21
          rw [gd_set_ne (by omega), hpar_p, gd_set_self (by omega)]
          exact hc.2
        · rw [gd_set_ne (by omega), gd_set_ne (by omega)]
          exact D1 c hc0 hce hsc hc_p hpar_p
    · -- D2 for the new state
      intro hs' c hc0 hce hparc
      have hpar22 : (2 * p + 2 - 1) / 2 = p := by omega
      rw [hpar22, gd_set_ne (by omega), gd_set_self (by omega)]
      have := D1 c hc0 hce (by omega) (by omega) (by omega)
      rw [hparc] at this
      exact this
  | case2 heap p h hc ih =>
    intro he hp ha D1 D2
    rw [siftupLoop]
    simp only [dif_pos h, if_neg hc]
    have hsp : s ≤ p := isAnc_le ha
    apply ih
    · simpa using he
    · omega
    · exact isAnc_child ha (Or.inl rfl)
    · -- D1 for the new state, hole at 2p+1
      intro c hc0 hce hsc hcne hparne
      have hpar21 : (2 * p + 1 - 1) / 2 = p := by omega
      by_cases hc_p : c = p
      · subst hc_p
        rw [gd_set_self (by omega), gd_set_ne (by omega)]
        exact D2 (by omega) (2 * c + 1) (by omega) (by omega) hpar21
      · by_cases hpar_p : (c - 1) / 2 = p
        · have hc22 : c = 2 * p + 2 := by omega
          subst hc22
          rw [gd_set_ne (by omega), hpar_p, gd_set_self (by omega)]
          have hlt : lt (gd heap (2 * p + 1)) (gd heap (2 * p + 2)) = true := by
            rcases Decidable.not_and_iff_or_not.mp hc with h1 | h2
            · exact absurd hce h1
            · cases hb : lt (gd heap (2 * p + 1)) (gd heap (2 * p + 2))
              · exact absurd hb h2
              · rfl
          exact L.asymm _ _ hlt
        · rw [gd_set_ne (by omega), gd_set_ne (by omega)]
          exact D1 c hc0 hce hsc hc_p hpar_p
    · -- D2 for the new state
      intro hs' c hc0 hce hparc
      have hpar21 : (2 * p + 1 - 1) / 2 = p := by omega
      rw [hpar21, gd_set_ne (by omega), gd_set_self (by omega)]
      have := D1 c hc0 hce (by omega) (by omega) (by omega)
      rw [hparc] at this
      exact this
  | case3 heap p h =>
    intro he hp ha D1 D2
    rw [siftupLoop]
    simp only [dif_neg h]
    exact ⟨ha, by omega, D1, D2⟩

/-- `_siftup heap p` turns a position whose strictly-below edges are all
ordered into the root of an ordered region: all edges with parent at or above
`p` become ordered. -/
theorem siftup_heapFrom {α : Type} [Inhabited α] {lt : α → α → Bool}
    (L : LtLaws lt) (heap : List α) (p : Nat) (hp : p < heap.length)
    (hpre : heapFrom lt heap (p + 1)) :
    heapFrom lt (siftup lt heap p) p := by
  unfold siftup
  have hbounds := siftupLoop_pos_bounds lt heap.length heap p hp
  have hlen := siftupLoop_length lt heap.length heap p
  obtain ⟨hanc, hleaf, hD1, hD2⟩ :=
    siftupLoop_spec L heap.length p heap p rfl hp (isAnc_self p)
      (fun c hc0 hce hsc hcp hparp => hpre c hc0 hce (by omega))
      (fun hs' => absurd hs' (lt_irrefl p))
  apply siftdownLoop_heapFrom L (gd heap p) _ p (siftupLoop lt heap.length heap p).2
  · rw [List.length_set, hlen]
    exact hbounds.2
  · exact hanc
  · intro c hc0 hclen hsc hcf hparf
    rw [List.length_set, hlen] at hclen
    rw [gd_set_ne (by omega), gd_set_ne (by omega)]
    exact hD1 c hc0 hclen hsc hcf hparf
  · intro c hc0 hclen hparc
    rw [List.length_set, hlen] at hclen
    omega
  · intro hsf c hc0 hclen hparc
    rw [List.length_set, hlen] at hclen
    omega

theorem heapifyLoop_heapFrom {α : Type} [Inhabited α] {lt : α → α → Bool}
    (L : LtLaws lt) :
    ∀ (x : List α) (k : Nat), k ≤ x.length → heapFrom lt x k →
    heapFrom lt (heapifyLoop lt x k) 0 := by
  intro x k
  induction k generalizing x with
  | zero => intro _ h; exact h
  | succ i ih =>
    intro hk hpre
    rw [heapifyLoop]
    apply ih
    · rw [siftup_length]; omega
    · -- heapFrom (siftup x i) i; weaken the parent bound from i to i
      exact siftup_heapFrom L x i (by omega) hpre

/-- `heapify` establishes the full heap invariant on any list. -/
theorem heapify_heapProp {α : Type} [Inhabited α] {lt : α → α → Bool}
    (L : LtLaws lt) (x : List α) : heapProp lt (heapify lt x) := by
  unfold heapify heapProp
  have h0 : heapFrom lt (heapifyLoop lt x (x.length / 2)) 0 := by
    apply heapifyLoop_heapFrom L x (x.length / 2) (by omega)
    intro c hc0 hclen hsc
    omega
  exact h0

theorem heapProp_nil {α : Type} [Inhabited α] (lt : α → α → Bool) :
    heapProp lt ([] : List α) := by
  intro c hc0 hclen hsc
  simp at hclen

/-- `heappush` preserves the heap invariant. -/
theorem heappush_heapProp {α : Type} [Inhabited α] {lt : α → α → Bool}
    (L : LtLaws lt) (heap : List α) (x : α) (hH : heapProp lt heap) :
    heapProp lt (heappush lt heap x) := by
  unfold heappush siftdown
  apply siftdownLoop_heapFrom L _ _ 0 heap.length
  · simp
  · exact isAnc_zero _
  · intro c hc0 hclen hsc hcn hparn
    simp only [List.length_append, List.length_cons, List.length_nil] at hclen
    have hcn' : c < heap.length := by omega
    have hparlt : (c - 1) / 2 < heap.length := by omega
    rw [gd_append_left hcn', gd_append_left hparlt]
    exact hH c hc0 hcn' (by omega)
  · intro c hc0 hclen hparc
    simp only [List.length_append, List.length_cons, List.length_nil] at hclen
    omega
  · intro hn c hc0 hclen hparc
    simp only [List.length_append, List.length_cons, List.length_nil] at hclen
    omega

/-- `_siftup(heap, 0)` restores the full invariant when only the root was
replaced. -/
theorem siftup_zero_heapProp {α : Type} [Inhabited α] {lt : α → α → Bool}
    (L : LtLaws lt) (A : List α) (h0 : 0 < A.length)
    (hpre : heapFrom lt A 1) : heapProp lt (siftup lt A 0) :=
  siftup_heapFrom L A 0 h0 hpre

theorem set_zero_heapFrom_one {α : Type} [Inhabited α] {lt : α → α → Bool}
    (heap : List α) (x : α) (hH : heapProp lt heap) :
    heapFrom lt (heap.set 0 x) 1 := by
  intro c hc0 hclen hsc
  rw [List.length_set] at hclen
  rw [gd_set_ne (by omega), gd_set_ne (by omega)]
  exact hH c hc0 hclen (by omega)

/-- `heappop` preserves the heap invariant. -/
theorem heappop_heapProp {α : Type} [Inhabited α] {lt : α → α → Bool}
    (L : LtLaws lt) (heap : List α) (v : α) (rest : List α)
    (hH : heapProp lt heap) (h : heappop lt heap = some (v, rest)) :
    heapProp lt rest := by
  match heap with
  | [] => simp [heappop] at h
  | [x] =>
    rw [heappop] at h
    simp only [List.dropLast_single, Option.some_inj, Prod.mk.injEq] at h
    rw [← h.2]
    exact heapProp_nil lt
  | x :: y :: zs =>
    rw [heappop_cons_cons] at h
    simp only [Option.some_inj, Prod.mk.injEq] at h
    rw [← h.2]
    have hD : (x :: y :: zs).dropLast = x :: (y :: zs).dropLast := by simp
    apply siftup_zero_heapProp L _ (by simp)
    intro c hc0 hclen hsc
    rw [List.length_set, ← hD, List.length_dropLast] at hclen
    rw [gd_set_ne (by omega), gd_set_ne (by omega), ← hD,
      gd_dropLast (by simpa using hclen), gd_dropLast (by simp at hclen ⊢; omega)]
    exact hH c hc0 (by simp at hclen ⊢; omega) (by omega)

/-- `heapreplace` preserves the heap invariant. -/
theorem heapreplace_heapProp {α : Type} [Inhabited α] {lt : α → α → Bool}
    (L : LtLaws lt) (heap : List α) (item : α) (v : α) (rest : List α)
    (hH : heapProp lt heap) (h : heapreplace lt heap item = some (v, rest)) :
    heapProp lt rest := by
  match heap with
  | [] => simp [heapreplace] at h
  | x :: xs =>
    rw [heapreplace] at h
    simp only [Option.some_inj, Prod.mk.injEq] at h
    rw [← h.2]
    exact siftup_zero_heapProp L _ (by simp)
      (set_zero_heapFrom_one _ item hH)

/-- `heappushpop` preserves the heap invariant. -/
theorem heappushpop_heapProp {α : Type} [Inhabited α] {lt : α → α → Bool}
    (L : LtLaws lt) (heap : List α) (item : α) (hH : heapProp lt heap) :
    heapProp lt (heappushpop lt heap item).2 := by
  match heap with
  | [] => rw [heappushpop]; exact hH
  | x :: xs =>
    rw [heappushpop]
    split
    · exact siftup_zero_heapProp L _ (by simp)
        (set_zero_heapFrom_one _ item hH)
    · exact hH

theorem gd_eq_getElem {α : Type} [Inhabited α] {l : List α} {i : Nat}
    (h : i < l.length) : gd l i = l[i] := by
  simp [gd, List.getD_eq_getElem?_getD, List.getElem?_eq_getElem h]

/-- In a valid heap, no entry precedes the root. -/
theorem heapProp_le_root {α : Type} [Inhabited α] {lt : α → α → Bool}
    (L : LtLaws lt) {heap : List α} (hH : heapProp lt heap) :
    ∀ i, i < heap.length → lt (gd heap i) (gd heap 0) = false := by
  intro i
  induction i using Nat.strong_induction_on with
  | _ i ih =>
    intro hi
    rcases Nat.eq_zero_or_pos i with h0 | hpos
    · subst h0; exact L.irrefl _
    · have hedge := hH i hpos hi (by omega)
      have hpar := ih ((i - 1) / 2) (by omega) (by omega)
      exact L.nlt_trans _ _ _ hedge hpar

theorem heapProp_mem_le_root {α : Type} [Inhabited α] {lt : α → α → Bool}
    (L : LtLaws lt) {heap : List α} (hH : heapProp lt heap) (a : α)
    (ha : a ∈ heap) : lt a (gd heap 0) = false := by
  obtain ⟨i, hi, hget⟩ := List.mem_iff_getElem.mp ha
  rw [← hget, ← gd_eq_getElem hi]
  exact heapProp_le_root L hH i hi

/-- `heappop` returns the root. -/
theorem heappop_root {α : Type} [Inhabited α] (lt : α → α → Bool)
    (heap : List α) (v : α) (rest : List α)
    (h : heappop lt heap = some (v, rest)) : v = gd heap 0 := by
  match heap with
  | [] => simp [heappop] at h
  | [x] =>
    rw [heappop] at h
    simp only [List.dropLast_single, Option.some_inj, Prod.mk.injEq] at h
    rw [← h.1]; rfl
  | x :: y :: zs =>
    rw [heappop_cons_cons] at h
    simp only [Option.some_inj, Prod.mk.injEq] at h
    rw [← h.1]; rfl

/-- Draining a valid heap produces a sequence sorted by the comparison:
no later element precedes an earlier one. -/
theorem drain_sorted {α : Type} [Inhabited α] {lt : α → α → Bool}
    (L : LtLaws lt) :
    ∀ heap : List α, heapProp lt heap →
      List.Sorted (fun a b : α => lt b a = false) (drain lt heap) := by
  intro heap
  induction heap using drain.induct lt with
  | case1 heap h =>
    intro hH
    cases heap with
    | nil => rw [drain_nil]; exact List.sorted_nil
    | cons x xs => exact absurd h (heappop_cons_ne_none lt x xs)
  | case2 heap v rest h ih =>
    intro hH
    rw [drain_cons lt heap v rest h, List.sorted_cons]
    constructor
    · intro b hb
      have hbrest : b ∈ rest := (drain_perm lt rest).subset hb
      have hbheap : b ∈ heap :=
        (heappop_perm lt heap v rest h).subset (List.mem_cons_of_mem v hbrest)
      rw [heappop_root lt heap v rest h]
      exact heapProp_mem_le_root L hH b hbheap
    · exact ih (heappop_heapProp L heap v rest hH h)

/-- Reference-sort agreement: draining the heap built by `heapify` yields
exactly `List.insertionSort` under the corresponding non-strict relation. -/
theorem drain_heapify_eq_insertionSort {α : Type} [Inhabited α]
    {lt : α → α → Bool} (L : LtLaws lt) (l : List α) :
    drain lt (heapify lt l) =
      List.insertionSort (fun a b => lt b a = false) l := by
  haveI : IsTotal α (fun a b => lt b a = false) := by
    constructor
    intro a b
    cases hab : lt b a with
    | false => exact Or.inl rfl
    | true => exact Or.inr (L.asymm b a hab)
  haveI : IsTrans α (fun a b => lt b a = false) := by
    constructor
    intro a b c hab hbc
    exact L.nlt_trans c b a hbc hab
  haveI : IsAntisymm α (fun a b => lt b a = false) := by
    constructor
    intro a b hab hba
    exact L.nlt_antisymm a b hba hab
  have hperm : (drain lt (heapify lt l)).Perm
      (List.insertionSort (fun a b => lt b a = false) l) :=
    ((drain_perm lt _).trans (heapify_perm lt l)).trans
      (List.perm_insertionSort _ l).symm
  exact List.eq_of_perm_of_sorted hperm
    (drain_sorted L _ (heapify_heapProp L l))
    (List.sorted_insertionSort _ l)

/-- Two valid heaps over the same multiset drain to the same sequence. -/
theorem drain_eq_of_perm {α : Type} [Inhabited α] {lt : α → α → Bool}
    (L : LtLaws lt) {A B : List α} (hA : heapProp lt A) (hB : heapProp lt B)
    (hperm : A.Perm B) : drain lt A = drain lt B := by
  haveI : IsAntisymm α (fun a b => lt b a = false) := by
    constructor
    intro a b hab hba
    exact L.nlt_antisymm a b hba hab
  have hperm2 : (drain lt A).Perm (drain lt B) :=
    ((drain_perm lt A).trans hperm).trans (drain_perm lt B).symm
  exact List.eq_of_perm_of_sorted hperm2 (drain_sorted L _ hA)
    (drain_sorted L _ hB)

/-- The head of the drained sequence is the root of the buffer. -/
theorem drain_head {α : Type} [Inhabited α] (lt : α → α → Bool) (x : α)
    (xs : List α) :
    ∃ t, drain lt (x :: xs) = gd (x :: xs) 0 :: t := by
  cases ho : heappop lt (x :: xs) with
  | none => exact absurd ho (heappop_cons_ne_none lt x xs)
  | some vr =>
    refine ⟨drain lt vr.2, ?_⟩
    rw [drain_cons lt _ vr.1 vr.2 (by rw [ho]),
      heappop_root lt _ vr.1 vr.2 (by rw [ho])]

/-- The state of a `heap_class.Heap` object: the orientation flag `self.max`
and the backing list `self._heap` of entries (raw items when no key function
is configured, `(key(item), item)` pairs otherwise). -/
structure Heap (ε : Type) where
  max : Bool
  buffer : List ε
deriving DecidableEq

/-- The effective entry comparison of a heap with orientation `mx`: every
method dispatches on `self.max` between a `heapq` primitive and its `_max`
variant, and each `_max` variant is the min primitive with the comparison
operands swapped (`flipLt`). -/
def eLt {ε : Type} (lt : ε → ε → Bool) (mx : Bool) : ε → ε → Bool :=
  if mx then flipLt lt else lt

theorem eLt_laws {ε : Type} {lt : ε → ε → Bool} (L : LtLaws lt) (mx : Bool) :
    LtLaws (eLt lt mx) := by
  cases mx
  · exact L
  · exact L.flip

/-- `Heap.__init__` from a list of entries (already key-wrapped if a key
function is used): `if items and self.max: heapify_max(items)
elif items: heapify(items)`. -/
def mkHeap {ε : Type} [Inhabited ε] (lt : ε → ε → Bool) (mx : Bool)
    (items : List ε) : Heap ε :=
  ⟨mx, if items.isEmpty then items
       else if mx then heapify_max lt items else heapify lt items⟩

/-- `Heap.push` (no key function, so `_add_key` is the identity):
`heappush_max(self._heap, item) if self.max else heappush(self._heap, item)`. -/
def Heap.push {ε : Type} [Inhabited ε] (lt : ε → ε → Bool) (h : Heap ε)
    (x : ε) : Heap ε :=
  if h.max then ⟨h.max, heappush_max lt h.buffer x⟩
  else ⟨h.max, heappush lt h.buffer x⟩

/-- `Heap.peek` (no key function): `self._heap[0]`, raising `IndexError`
("peek on empty Heap") when the buffer is empty.  A pure read: the method
does not assign to `self._heap`. -/
def Heap.peek {ε : Type} (h : Heap ε) : Except String ε :=
  match h.buffer with
  | [] => Except.error "IndexError: peek on empty Heap"
  | e :: _ => Except.ok e

/-- `Heap.__iter__` / `Heap._iter_with_key` (no key function): drain a copy
of the buffer with `heappop_max` / `heappop` according to `self.max`.  A pure
read of the container: each iteration pops a fresh copy (`self._heap[:]`). -/
def Heap.iterH {ε : Type} [Inhabited ε] (lt : ε → ε → Bool) (h : Heap ε) :
    List ε :=
  drain (eLt lt h.max) h.buffer

/-- The index adjustment all index-based `Heap` methods perform first:
`if pos < 0: pos = len(self) + pos`. -/
def adjIdx (len : Nat) (index : Int) : Int :=
  if index < 0 then (len : Int) + index else index

/-- The buffer rebuilt by the drain-and-filter loops of `Heap.pop` (non-root
index) and `Heap.__delitem__`: every drained entry except the one at drain
position `idx`. -/
def dropAt {ε : Type} (ds : List ε) (idx : Int) : List ε :=
  ds.enum.filterMap (fun q => if (q.1 : Int) = idx then none else some q.2)

/-- `Heap.pop(index=0)` (no key function).  Raises on an empty heap; a
negative index is counted from the end; index 0 pops the root via
`heappop`/`heappop_max`; any other in-range index drains a copy, keeps all
entries except the one at the requested drain position, re-heapifies, and
returns the dropped entry; out-of-range indexes raise. -/
def Heap.pop {ε : Type} [Inhabited ε] (lt : ε → ε → Bool) (h : Heap ε)
    (index : Int) : Except String (ε × Heap ε) :=
  match h.buffer with
  | [] => Except.error "IndexError: pop from empty Heap"
  | _ :: _ =>
    if adjIdx h.buffer.length index = 0 then
      match heappop (eLt lt h.max) h.buffer with
      | none => Except.error "IndexError: pop from empty Heap"
      | some (v, rest) => Except.ok (v, ⟨h.max, rest⟩)
    else if adjIdx h.buffer.length index < 0 ∨
        (h.buffer.length : Int) ≤ adjIdx h.buffer.length index then
      Except.error "IndexError: pop index out of range"
    else
      Except.ok
        (gd (drain (eLt lt h.max) h.buffer) (adjIdx h.buffer.length index).toNat,
          ⟨h.max,
            if h.max then
              heapify_max lt
                (dropAt (drain (eLt lt h.max) h.buffer) (adjIdx h.buffer.length index))
            else
              heapify lt
                (dropAt (drain (eLt lt h.max) h.buffer) (adjIdx h.buffer.length index))⟩)

/-- `Heap.replace` (no key function): `heapreplace_max` / `heapreplace`,
which raise `IndexError` on an empty buffer. -/
def Heap.replace {ε : Type} [Inhabited ε] (lt : ε → ε → Bool) (h : Heap ε)
    (item : ε) : Except String (ε × Heap ε) :=
  match (if h.max then heapreplace_max lt h.buffer item
         else heapreplace lt h.buffer item) with
  | none => Except.error "IndexError: index out of range"
  | some (v, rest) => Except.ok (v, ⟨h.max, rest⟩)

/-- `Heap.pushpop` (no key function): `heappushpop_max(self._heap, item)` if
`self.max` else `heappushpop(self._heap, item)`.  The result value is an
`Except` because the `C_LANGUAGE_HEAP` branch of `heappushpop_max` raises. -/
def Heap.pushpop {ε : Type} [Inhabited ε] (cLang : Bool) (lt : ε → ε → Bool)
    (h : Heap ε) (x : ε) : Except String ε × Heap ε :=
  if h.max then
    ((heappushpop_max cLang lt h.buffer x).1,
      ⟨h.max, (heappushpop_max cLang lt h.buffer x).2⟩)
  else
    (Except.ok (heappushpop lt h.buffer x).1,
      ⟨h.max, (heappushpop lt h.buffer x).2⟩)

/-- `Heap.__getitem__` (no key function): position 0 reads `self._heap[0]`
(raising `IndexError` on an empty buffer); otherwise a negative position is
counted from the end and the drained sequence is scanned with
`enumerate` for the matching position, raising `IndexError` when no drain
position matches.  A pure read. -/
def Heap.getItem {ε : Type} [Inhabited ε] (lt : ε → ε → Bool) (h : Heap ε)
    (pos : Int) : Except String ε :=
  if pos = 0 then
    match h.buffer with
    | [] => Except.error "IndexError: list index out of range"
    | e :: _ => Except.ok e
  else
    if adjIdx h.buffer.length pos < 0 then
      Except.error "IndexError: Heap index out of range"
    else
      match (drain (eLt lt h.max) h.buffer)[(adjIdx h.buffer.length pos).toNat]? with
      | some it => Except.ok it
      | none => Except.error "IndexError: Heap index out of range"

/-- `Heap.__setitem__` (no key function).  After counting a negative index
from the end, the source raises only when `pos > len(self)` (note: `>` and
not `>=`), then rebuilds the buffer from the drained sequence replacing
position `pos` — so when no drain position equals `pos` (e.g. `pos ==
len(self)`, or a still-negative adjusted index) it silently rebuilds the same
contents and drops the new item. -/
def Heap.setItem {ε : Type} [Inhabited ε] (lt : ε → ε → Bool) (h : Heap ε)
    (pos : Int) (x : ε) : Except String (Heap ε) :=
  if (h.buffer.length : Int) < adjIdx h.buffer.length pos then
    Except.error "IndexError: Heap index out of range"
  else
    Except.ok ⟨h.max,
      if h.max then
        heapify_max lt ((drain (eLt lt h.max) h.buffer).enum.map
          (fun q => if (q.1 : Int) = adjIdx h.buffer.length pos then x else q.2))
      else
        heapify lt ((drain (eLt lt h.max) h.buffer).enum.map
          (fun q => if (q.1 : Int) = adjIdx h.buffer.length pos then x else q.2))⟩

/-- `Heap.__delitem__` (no key function): same structure (and the same
`pos > len(self)` bound check) as `__setitem__`, dropping the entry at the
matching drain position instead of replacing it. -/
def Heap.delItem {ε : Type} [Inhabited ε] (lt : ε → ε → Bool) (h : Heap ε)
    (pos : Int) : Except String (Heap ε) :=
  if (h.buffer.length : Int) < adjIdx h.buffer.length pos then
    Except.error "IndexError: Heap index out of range"
  else
    Except.ok ⟨h.max,
      if h.max then
        heapify_max lt (dropAt (drain (eLt lt h.max) h.buffer)
          (adjIdx h.buffer.length pos))
      else
        heapify lt (dropAt (drain (eLt lt h.max) h.buffer)
          (adjIdx h.buffer.length pos))⟩

/-- `Heap.raw` (no key function, so `_del_key` is the identity):
`[self._del_key(i) for i in self._heap]`. -/
def Heap.raw {ε : Type} (h : Heap ε) : List ε :=
  h.buffer.map (fun i => i)

/-- `Heap.clear`: `self._heap = []`. -/
def Heap.clear {ε : Type} (h : Heap ε) : Heap ε :=
  ⟨h.max, []⟩

/-- `Heap.extend` (no key function, where `_add_key` is the identity and so
the double key-wrapping in the source has no effect): one `push` per item. -/
def Heap.extendNK {ε : Type} [Inhabited ε] (lt : ε → ε → Bool) (h : Heap ε)
    (others : List ε) : Heap ε :=
  others.foldl (fun hh o => hh.push lt o) h

/-- `Heap.reverse`: flip `self.max`, then re-heapify the buffer in place
under the new orientation. -/
def Heap.reverseH {ε : Type} [Inhabited ε] (lt : ε → ε → Bool) (h : Heap ε) :
    Heap ε :=
  ⟨!h.max, if !h.max then heapify_max lt h.buffer else heapify lt h.buffer⟩

/-- The heap invariant of a container state: the spec's parent-child relation
under the effective comparison induced by the orientation. -/
def Heap.inv {ε : Type} [Inhabited ε] (lt : ε → ε → Bool) (h : Heap ε) : Prop :=
  heapProp (eLt lt h.max) h.buffer

theorem heapify_dispatch {ε : Type} [Inhabited ε] (lt : ε → ε → Bool)
    (mx : Bool) (l : List ε) :
    (if mx then heapify_max lt l else heapify lt l) = heapify (eLt lt mx) l := by
  cases mx <;> simp [heapify_max, eLt]

theorem mkHeap_buffer {ε : Type} [Inhabited ε] (lt : ε → ε → Bool)
    (mx : Bool) (items : List ε) :
    (mkHeap lt mx items).buffer =
      if items.isEmpty then items else heapify (eLt lt mx) items := by
  rw [mkHeap, ← heapify_dispatch]

theorem mkHeap_inv {ε : Type} [Inhabited ε] {lt : ε → ε → Bool}
    (L : LtLaws lt) (mx : Bool) (items : List ε) :
    (mkHeap lt mx items).inv lt := by
  unfold Heap.inv
  rw [show (mkHeap lt mx items).max = mx from rfl, mkHeap_buffer]
  split
  · next he =>
    rw [List.isEmpty_iff.mp he]
    exact heapProp_nil _
  · exact heapify_heapProp (eLt_laws L mx) items

theorem mkHeap_perm {ε : Type} [Inhabited ε] (lt : ε → ε → Bool)
    (mx : Bool) (items : List ε) :
    (mkHeap lt mx items).buffer.Perm items := by
  rw [mkHeap_buffer]
  split
  · exact List.Perm.refl _
  · exact heapify_perm _ _

theorem push_buffer {ε : Type} [Inhabited ε] (lt : ε → ε → Bool)
    (h : Heap ε) (x : ε) :
    (h.push lt x).buffer = heappush (eLt lt h.max) h.buffer x ∧
      (h.push lt x).max = h.max := by
  unfold Heap.push
  cases hm : h.max <;> simp [heappush_max, eLt]

theorem push_inv {ε : Type} [Inhabited ε] {lt : ε → ε → Bool}
    (L : LtLaws lt) (h : Heap ε) (x : ε) (hI : h.inv lt) :
    (h.push lt x).inv lt := by
  unfold Heap.inv
  rw [(push_buffer lt h x).1, (push_buffer lt h x).2]
  exact heappush_heapProp (eLt_laws L h.max) _ x hI

theorem push_perm {ε : Type} [Inhabited ε] (lt : ε → ε → Bool)
    (h : Heap ε) (x : ε) :
    (h.push lt x).buffer.Perm (h.buffer ++ [x]) := by
  rw [(push_buffer lt h x).1]
  exact heappush_perm _ _ _

theorem pop_inv {ε : Type} [Inhabited ε] {lt : ε → ε → Bool}
    (L : LtLaws lt) (h : Heap ε) (i : Int) (v : ε) (h' : Heap ε)
    (hI : h.inv lt) (hp : h.pop lt i = Except.ok (v, h')) :
    h'.inv lt ∧ h'.max = h.max := by
  unfold Heap.pop at hp
  split at hp
  · exact absurd hp (by simp)
  · split at hp
    · split at hp
      · exact absurd hp (by simp)
      · rename_i v1 rest1 hpop
        simp only [Except.ok.injEq, Prod.mk.injEq] at hp
        rw [← hp.2]
        exact ⟨heappop_heapProp (eLt_laws L h.max) h.buffer v1 rest1
          hI hpop, rfl⟩
    · split at hp
      · exact absurd hp (by simp)
      · simp only [Except.ok.injEq, Prod.mk.injEq] at hp
        rw [← hp.2]
        refine ⟨?_, rfl⟩
        unfold Heap.inv
        simp only [heapify_dispatch]
        exact heapify_heapProp (eLt_laws L h.max) _

theorem replace_inv {ε : Type} [Inhabited ε] {lt : ε → ε → Bool}
    (L : LtLaws lt) (h : Heap ε) (x : ε) (v : ε) (h' : Heap ε)
    (hI : h.inv lt) (hp : h.replace lt x = Except.ok (v, h')) :
    h'.inv lt ∧ h'.max = h.max := by
  unfold Heap.replace at hp
  have hrw : (if h.max then heapreplace_max lt h.buffer x
      else heapreplace lt h.buffer x) = heapreplace (eLt lt h.max) h.buffer x := by
    cases h.max <;> simp [heapreplace_max, eLt]
  rw [hrw] at hp
  split at hp
  · exact absurd hp (by simp)
  · next v1 rest1 hrep =>
    simp only [Except.ok.injEq, Prod.mk.injEq] at hp
    rw [← hp.2]
    exact ⟨heapreplace_heapProp (eLt_laws L h.max) h.buffer x v1 rest1 hI hrep,
      rfl⟩

/-- With `C_LANGUAGE_HEAP` false, `heappushpop_max` is exactly `heappushpop`
with the comparison operands swapped, wrapped in `Except.ok`. -/
theorem heappushpop_max_pure {ε : Type} [Inhabited ε] (lt : ε → ε → Bool)
    (heap : List ε) (item : ε) :
    heappushpop_max false lt heap item =
      (Except.ok (heappushpop (flipLt lt) heap item).1,
        (heappushpop (flipLt lt) heap item).2) := by
  unfold heappushpop_max heappushpop
  cases heap with
  | nil => simp
  | cons a as =>
    simp only [if_neg Bool.false_ne_true]
    by_cases hc : lt item (gd (a :: as) 0) = true
    · simp [flipLt, hc]
    · simp [flipLt, hc]

theorem pushpop_state_inv {ε : Type} [Inhabited ε] {lt : ε → ε → Bool}
    (L : LtLaws lt) (cLang : Bool) (h : Heap ε) (x : ε) (hI : h.inv lt) :
    ((h.pushpop cLang lt x).2).inv lt ∧ ((h.pushpop cLang lt x).2).max = h.max := by
  have hI' : heapProp (eLt lt h.max) h.buffer := hI
  unfold Heap.pushpop
  cases hm : h.max with
  | false =>
    have helt0 : eLt lt false = lt := by simp [eLt]
    rw [hm, helt0] at hI'
    refine ⟨?_, rfl⟩
    show heapProp (eLt lt false) (heappushpop lt h.buffer x).2
    rw [helt0]
    exact heappushpop_heapProp L h.buffer x hI'
  | true =>
    have helt : eLt lt true = flipLt lt := by simp [eLt]
    rw [hm, helt] at hI'
    refine ⟨?_, rfl⟩
    show heapProp (eLt lt true) (heappushpop_max cLang lt h.buffer x).2
    rw [helt]
    cases cLang with
    | true =>
      show heapProp (flipLt lt) (heappush (flipLt lt) h.buffer x)
      exact heappush_heapProp L.flip h.buffer x hI'
    | false =>
      rw [heappushpop_max_pure]
      exact heappushpop_heapProp L.flip h.buffer x hI'

/-- One mutating heap operation of the claim "after any sequence of push,
pop, replace, pushpop and heapify (construction) operations". -/
inductive HOp (ε : Type) where
  | pushOp : ε → HOp ε
  | popAt : Int → HOp ε
  | replaceOp : ε → HOp ε
  | pushpopOp : ε → HOp ε

/-- Apply one operation to a container state.  An operation that raises
leaves the state it had committed at the raise: `pop`/`replace` validate
before mutating, so a failed call leaves the state unchanged, while the
`C_LANGUAGE_HEAP` branch of `pushpop` on a max heap first pushes and then
raises, leaving the pushed state. -/
def Heap.step {ε : Type} [Inhabited ε] (cLang : Bool) (lt : ε → ε → Bool)
    (h : Heap ε) : HOp ε → Heap ε
  | HOp.pushOp x => h.push lt x
  | HOp.popAt i =>
    match h.pop lt i with
    | Except.ok p => p.2
    | Except.error _ => h
  | HOp.replaceOp x =>
    match h.replace lt x with
    | Except.ok p => p.2
    | Except.error _ => h
  | HOp.pushpopOp x => (h.pushpop cLang lt x).2

/-- Run a sequence of operations from a state. -/
def Heap.run {ε : Type} [Inhabited ε] (cLang : Bool) (lt : ε → ε → Bool)
    (h : Heap ε) (ops : List (HOp ε)) : Heap ε :=
  ops.foldl (Heap.step cLang lt) h

theorem step_inv {ε : Type} [Inhabited ε] {lt : ε → ε → Bool}
    (L : LtLaws lt) (cLang : Bool) (h : Heap ε) (op : HOp ε)
    (hI : h.inv lt) : (Heap.step cLang lt h op).inv lt := by
  cases op with
  | pushOp x => exact push_inv L h x hI
  | popAt i =>
    show Heap.inv lt (match h.pop lt i with
      | Except.ok p => p.2
      | Except.error _ => h)
    cases hres : h.pop lt i with
    | ok p => exact (pop_inv L h i p.1 p.2 hI (by rw [hres])).1
    | error e => exact hI
  | replaceOp x =>
    show Heap.inv lt (match h.replace lt x with
      | Except.ok p => p.2
      | Except.error _ => h)
    cases hres : h.replace lt x with
    | ok p => exact (replace_inv L h x p.1 p.2 hI (by rw [hres])).1
    | error e => exact hI
  | pushpopOp x => exact (pushpop_state_inv L cLang h x hI).1

theorem run_inv {ε : Type} [Inhabited ε] {lt : ε → ε → Bool}
    (L : LtLaws lt) (cLang : Bool) (ops : List (HOp ε)) :
    ∀ h : Heap ε, h.inv lt → (Heap.run cLang lt h ops).inv lt := by
  induction ops with
  | nil => intro h hI; exact hI
  | cons op rest ih =>
    intro h hI
    exact ih (Heap.step cLang lt h op) (step_inv L cLang h op hI)

/-- Iterating a freshly constructed container yields the reference sort of
the input under the effective comparator. -/
theorem iterH_mkHeap {ε : Type} [Inhabited ε] {lt : ε → ε → Bool}
    (L : LtLaws lt) (mx : Bool) (l : List ε) :
    (mkHeap lt mx l).iterH lt =
      List.insertionSort (fun a b => eLt lt mx b a = false) l := by
  unfold Heap.iterH
  rw [show (mkHeap lt mx l).max = mx from rfl, mkHeap_buffer]
  by_cases he : l.isEmpty
  · rw [if_pos he, List.isEmpty_iff.mp he, drain_nil]
    rfl
  · rw [if_neg he]
    exact drain_heapify_eq_insertionSort (eLt_laws L mx) l

/-- Python's comparison on the `(key, item)` tuples built by `_add_key`:
tuples compare lexicographically, so the key components are compared first
and the items break ties. -/
def tupLt {κ β : Type} [LinearOrder κ] [LinearOrder β] (p q : κ × β) : Bool :=
  decide (p.1 < q.1) || (decide (p.1 = q.1) && decide (p.2 < q.2))

theorem tupLt_eq_true_iff {κ β : Type} [LinearOrder κ] [LinearOrder β]
    (p q : κ × β) :
    tupLt p q = true ↔ p.1 < q.1 ∨ (p.1 = q.1 ∧ p.2 < q.2) := by
  simp [tupLt]

theorem tupLt_laws {κ β : Type} [LinearOrder κ] [LinearOrder β] :
    LtLaws (fun p q : κ × β => tupLt p q) := by
  constructor
  · intro a
    rw [← Bool.not_eq_true, tupLt_eq_true_iff]
    simp
  · intro a b h
    rw [tupLt_eq_true_iff] at h
    rw [← Bool.not_eq_true, tupLt_eq_true_iff]
    rcases h with h1 | ⟨he, h2⟩
    · rintro (hb | ⟨hbe, hb2⟩)
      · exact lt_asymm h1 hb
      · rw [hbe] at h1
        exact lt_irrefl _ h1
    · rintro (hb | ⟨hbe, hb2⟩)
      · rw [he] at hb
        exact lt_irrefl _ hb
      · exact lt_asymm h2 hb2
  · intro a b c h1 h2
    rw [← Bool.not_eq_true, tupLt_eq_true_iff] at h1 h2 ⊢
    push_neg at h1 h2 ⊢
    refine ⟨le_trans h2.1 h1.1, ?_⟩
    intro hac
    have hab : b.1 = a.1 := le_antisymm (h1.1) (by rw [hac]; exact h2.1)
    have hsnd1 := h1.2 hab.symm
    have hsnd2 := h2.2 (by rw [hab, hac])
    exact le_trans hsnd2 hsnd1
  · intro a b h1 h2
    rw [← Bool.not_eq_true, tupLt_eq_true_iff] at h1 h2
    push_neg at h1 h2
    have hfst : a.1 = b.1 := le_antisymm h2.1 h1.1
    have hsnd : a.2 = b.2 := le_antisymm (h2.2 hfst.symm) (h1.2 hfst)
    exact Prod.ext hfst hsnd

/-- `Heap._add_key`: wrap an item as `(key(item), item)`. -/
def addKey {κ β : Type} (key : β → κ) (item : β) : κ × β := (key item, item)

/-- `Heap.__init__` with a key function: wrap every input item with
`_add_key`, then heapify. -/
def mkHeapK {κ β : Type} [LinearOrder κ] [LinearOrder β] [Inhabited κ]
    [Inhabited β] (key : β → κ) (mx : Bool) (items : List β) : Heap (κ × β) :=
  mkHeap tupLt mx (items.map (addKey key))

/-- `Heap.__iter__` with a key function: drain the keyed entries and strip
the wrapper with `_del_key` (`item[1]`). -/
def Heap.iterK {κ β : Type} [LinearOrder κ] [LinearOrder β] [Inhabited κ]
    [Inhabited β] (h : Heap (κ × β)) : List β :=
  (drain (eLt tupLt h.max) h.buffer).map Prod.snd

/-- Keyed order correctness: iterating a keyed container yields the
projection of the reference sort of the wrapped input under the lexicographic
comparator (key first, item as tie-break). -/
theorem iterK_mkHeapK {κ β : Type} [LinearOrder κ] [LinearOrder β]
    [Inhabited κ] [Inhabited β] (key : β → κ) (mx : Bool) (items : List β) :
    (mkHeapK key mx items).iterK =
      (List.insertionSort (fun a b : κ × β => eLt tupLt mx b a = false)
        (items.map (addKey key))).map Prod.snd := by
  unfold Heap.iterK mkHeapK
  rw [show ∀ l : List (κ × β), drain (eLt tupLt (mkHeap tupLt mx l).max)
      (mkHeap tupLt mx l).buffer = (mkHeap tupLt mx l).iterH tupLt from
      fun l => rfl]
  rw [iterH_mkHeap tupLt_laws mx (items.map (addKey key))]

theorem peek_eq_root {ε : Type} [Inhabited ε] (h : Heap ε)
    (hne : h.buffer ≠ []) : h.peek = Except.ok (gd h.buffer 0) := by
  unfold Heap.peek
  match hb : h.buffer with
  | [] => exact absurd hb hne
  | e :: es => rfl

theorem getItem_zero {ε : Type} [Inhabited ε] (lt : ε → ε → Bool) (h : Heap ε)
    (hne : h.buffer ≠ []) : h.getItem lt 0 = Except.ok (gd h.buffer 0) := by
  unfold Heap.getItem
  rw [if_pos rfl]
  match hb : h.buffer with
  | [] => exact absurd hb hne
  | e :: es => rfl

theorem iterH_head {ε : Type} [Inhabited ε] (lt : ε → ε → Bool) (h : Heap ε)
    (hne : h.buffer ≠ []) :
    ∃ t, h.iterH lt = gd h.buffer 0 :: t := by
  unfold Heap.iterH
  match hb : h.buffer with
  | [] => exact absurd hb hne
  | e :: es => exact drain_head (eLt lt h.max) e es

theorem raw_eq_buffer {ε : Type} (h : Heap ε) : h.raw = h.buffer := by
  simp [Heap.raw]

theorem reverseH_buffer {ε : Type} [Inhabited ε] (lt : ε → ε → Bool)
    (h : Heap ε) :
    (h.reverseH lt).buffer = heapify (eLt lt (!h.max)) h.buffer := by
  unfold Heap.reverseH
  rw [← heapify_dispatch]

/-- `reverse()` twice restores the orientation flag, keeps the contents, and
revalidates the heap invariant; the resulting iteration sequence is the
original one. -/
theorem reverse_reverse_iter {ε : Type} [Inhabited ε] {lt : ε → ε → Bool}
    (L : LtLaws lt) (h : Heap ε) (hI : h.inv lt) :
    ((h.reverseH lt).reverseH lt).max = h.max ∧
      ((h.reverseH lt).reverseH lt).iterH lt = h.iterH lt := by
  have hmax : ((h.reverseH lt).reverseH lt).max = h.max := by
    show (!(!h.max)) = h.max
    exact Bool.not_not h.max
  refine ⟨hmax, ?_⟩
  unfold Heap.iterH
  rw [hmax]
  apply drain_eq_of_perm (eLt_laws L h.max)
  · -- the doubly re-heapified buffer is a valid heap for the restored orientation
    have hb2 : ((h.reverseH lt).reverseH lt).buffer =
        heapify (eLt lt (!(!h.max))) ((h.reverseH lt).buffer) := by
      rw [reverseH_buffer]
      rfl
    rw [hb2]
    have : (!(!h.max)) = h.max := by simp
    rw [this]
    exact heapify_heapProp (eLt_laws L h.max) _
  · exact hI
  · rw [show ((h.reverseH lt).reverseH lt).buffer =
        heapify (eLt lt (!(!h.max))) ((h.reverseH lt).buffer) from by
        rw [reverseH_buffer]; rfl,
      reverseH_buffer]
    exact (heapify_perm _ _).trans (heapify_perm _ _)

theorem extendNK_spec {ε : Type} [Inhabited ε] {lt : ε → ε → Bool}
    (L : LtLaws lt) (l : List ε) :
    ∀ s : Heap ε, (s.extendNK lt l).max = s.max ∧
      (s.extendNK lt l).buffer.Perm (s.buffer ++ l) ∧
      (s.inv lt → (s.extendNK lt l).inv lt) := by
  induction l with
  | nil => intro s; exact ⟨rfl, by simp [Heap.extendNK], fun hI => hI⟩
  | cons o rest ih =>
    intro s
    have hstep : s.extendNK lt (o :: rest) = (s.push lt o).extendNK lt rest := rfl
    rw [hstep]
    obtain ⟨hm, hperm, hinv⟩ := ih (s.push lt o)
    refine ⟨by rw [hm, (push_buffer lt s o).2], ?_, ?_⟩
    · refine hperm.trans ?_
      have := push_perm lt s o
      calc (s.push lt o).buffer ++ rest
          ~ (s.buffer ++ [o]) ++ rest := this.append_right rest
        _ ~ s.buffer ++ (o :: rest) := by simp
    · intro hI
      exact hinv (push_inv L s o hI)

/-- Round-trip for containers without a key function: `raw()` then `clear()`
then `extend(...)` rebuilds a container with the same orientation and the
same multiset, so it iterates to the same sequence. -/
theorem roundtripNK {ε : Type} [Inhabited ε] {lt : ε → ε → Bool}
    (L : LtLaws lt) (h : Heap ε) (hI : h.inv lt) :
    ((h.clear).extendNK lt h.raw).iterH lt = h.iterH lt := by
  obtain ⟨hm, hperm, hinv⟩ := extendNK_spec L h.raw h.clear
  have hmc : (h.clear).max = h.max := rfl
  unfold Heap.iterH
  rw [hm, hmc]
  apply drain_eq_of_perm (eLt_laws L h.max)
  · have := hinv (by unfold Heap.inv; exact heapProp_nil _)
    unfold Heap.inv at this
    rw [hm, hmc] at this
    exact this
  · exact hI
  · refine hperm.trans ?_
    rw [raw_eq_buffer]
    simp [Heap.clear]

/-- Python's `<` on `Int`, used to instantiate the generic development at
integer contents. -/
def intLt : Int → Int → Bool := fun a b => decide (a < b)

theorem intLt_laws : LtLaws intLt := ltb_laws

/-- A fragment of Python's dynamic value universe: integers and pairs.  This
is needed to express what `Heap.extend` does when a key function is
configured: entries that are already `(key, item)` pairs are passed back into
`push`, which wraps them again, producing nested pairs — something a fixed
entry type cannot represent. -/
inductive V where
  | int : Int → V
  | pair : V → V → V
deriving DecidableEq

instance : Inhabited V := ⟨V.int 0⟩

/-- `Heap._add_key` over dynamic values: `(self.key(item), item)`. -/
def addKeyV (key : V → V) (item : V) : V := V.pair (key item) item

/-- `Heap._del_key` over dynamic values: `item[1]`.  Every entry the modelled
methods store is a pair, so the non-pair case (a Python `TypeError`) is never
reached in the modelled runs. -/
def delKeyV : V → V
  | V.pair _ b => b
  | x => x

/-- `Heap.__init__` with a key function over dynamic values: wrap each input
item with `_add_key`, then heapify. -/
def mkHeapKV (lt : V → V → Bool) (key : V → V) (mx : Bool)
    (items : List V) : Heap V :=
  mkHeap lt mx (items.map (addKeyV key))

/-- `Heap.push` with a key function over dynamic values:
`heappush(self._heap, self._add_key(new_item))` with the `max` dispatch. -/
def pushKV (lt : V → V → Bool) (key : V → V) (h : Heap V) (x : V) : Heap V :=
  if h.max then ⟨h.max, heappush_max lt h.buffer (addKeyV key x)⟩
  else ⟨h.max, heappush lt h.buffer (addKeyV key x)⟩

/-- `Heap.extend` with a key function (src/heap_class/__init__.py lines
188-190): `for o in others: self.push(self._add_key(o))`.  The argument
handed to `push` is already key-wrapped, and `push` wraps it again. -/
def extendKV (lt : V → V → Bool) (key : V → V) (h : Heap V)
    (others : List V) : Heap V :=
  others.foldl (fun hh o => pushKV lt key hh (addKeyV key o)) h

/-- `Heap.raw` with a key function: `[self._del_key(i) for i in self._heap]`. -/
def rawKV (h : Heap V) : List V := h.buffer.map delKeyV

/-- `Heap.__iter__` with a key function over dynamic values: drain the buffer
copy, stripping one `_del_key` per yielded entry. -/
def iterKV (lt : V → V → Bool) (h : Heap V) : List V :=
  (drain (eLt lt h.max) h.buffer).map delKeyV

/-- `Heap.index` (src/heap_class/__init__.py lines 192-201) on a container of
integers.  The loop header is `for i, existing in self._iter_with_key():`
with no `enumerate`, so each drained element is unpacked as an
`(i, existing)` pair: with integer contents the first loop iteration raises
`TypeError`; when the container is empty the loop body never runs and the
trailing `raise ValueError(... not in Heap)` fires.  `start` and `stop` are
never reached. -/
def Heap.indexInt (lt : Int → Int → Bool) (h : Heap Int) (item : Int)
    (start stop : Int) : Except String Nat :=
  match drain (eLt lt h.max) h.buffer with
  | [] => Except.error "ValueError: item is not in Heap"
  | _ :: _ => Except.error "TypeError: cannot unpack non-iterable int object"

set_option maxRecDepth 4000

/-- C1: for every finite input multiset (with either orientation, and with or
without a key function), iterating the constructed container yields the full
contents sorted according to the orientation — ascending for min, descending
for max — equal to a reference sort (`List.insertionSort`) of the same input
under the same effective comparator (the orientation-flipped `lt`, with keyed
entries compared lexicographically by key then item). -/
theorem claim_C1_order_correctness :
    (∀ (ε : Type) [Inhabited ε] (lt : ε → ε → Bool), LtLaws lt →
      ∀ (mx : Bool) (l : List ε),
        (mkHeap lt mx l).iterH lt =
          List.insertionSort (fun a b => eLt lt mx b a = false) l) ∧
    (∀ (κ β : Type) [LinearOrder κ] [LinearOrder β] [Inhabited κ]
        [Inhabited β] (key : β → κ) (mx : Bool) (items : List β),
        (mkHeapK key mx items).iterK =
          (List.insertionSort (fun a b : κ × β => eLt tupLt mx b a = false)
            (items.map (addKey key))).map Prod.snd) := by
  constructor
  · intro ε _ lt L mx l
    exact iterH_mkHeap L mx l
  · intro κ β _ _ _ _ key mx items
    exact iterK_mkHeapK key mx items

theorem claim_C1_witness :
    (mkHeap intLt false [40, 30, 20]).iterH intLt = [20, 30, 40] ∧
    (mkHeap intLt true [40, 30, 20]).iterH intLt = [40, 30, 20] := by
  constructor
  · rw [claim_C1_order_correctness.1 Int intLt intLt_laws false [40, 30, 20]]
    decide
  · rw [claim_C1_order_correctness.1 Int intLt intLt_laws true [40, 30, 20]]
    decide

/-- C2: after any sequence of push, pop, replace and pushpop operations on a
container built by heapify (construction), the buffer satisfies the heap
invariant: for every non-root position `c`, the entry at `c` does not precede
the entry at its parent position `⌊(c-1)/2⌋` under the effective comparison
induced by the configured orientation.  `cLang` covers both realizations of
`heappushpop_max`. -/
theorem claim_C2_invariant_preservation :
    ∀ (ε : Type) [Inhabited ε] (lt : ε → ε → Bool), LtLaws lt →
    ∀ (cLang mx : Bool) (items : List ε) (ops : List (HOp ε)),
      heapProp (eLt lt (Heap.run cLang lt (mkHeap lt mx items) ops).max)
        (Heap.run cLang lt (mkHeap lt mx items) ops).buffer := by
  intro ε _ lt L cLang mx items ops
  exact run_inv L cLang ops _ (mkHeap_inv L mx items)

theorem claim_C2_witness :
    heapProp
      (eLt intLt
        (Heap.run true intLt (mkHeap intLt false [5, 3, 8, 1])
          [HOp.pushOp 4, HOp.popAt 0, HOp.replaceOp 7, HOp.pushpopOp 2,
            HOp.popAt (-1)]).max)
      (Heap.run true intLt (mkHeap intLt false [5, 3, 8, 1])
        [HOp.pushOp 4, HOp.popAt 0, HOp.replaceOp 7, HOp.pushpopOp 2,
          HOp.popAt (-1)]).buffer :=
  claim_C2_invariant_preservation Int intLt intLt_laws true false [5, 3, 8, 1]
    [HOp.pushOp 4, HOp.popAt 0, HOp.replaceOp 7, HOp.pushpopOp 2,
      HOp.popAt (-1)]

/-- C3 (code bug): on standard CPython (`C_LANGUAGE_HEAP = True`),
`Heap([1], max=True).pushpop(0)` does not equal `push(0)` followed by
`pop()`: `heappushpop_max` pushes and then calls `heappop_max(item)` on the
pushed *item* instead of the heap, raising `TypeError` and leaving the pushed
item in the buffer, whereas push-then-pop returns `1` and leaves `[0]`. -/
theorem claim_C3_pushpop_bug :
    Heap.pushpop true intLt ⟨true, [1]⟩ 0 =
      (Except.error "TypeError: argument of _heappop_max is not a list",
        ⟨true, [1, 0]⟩) ∧
    ((⟨true, [1]⟩ : Heap Int).push intLt 0).pop intLt 0 =
      Except.ok (1, ⟨true, [0]⟩) := by
  constructor
  · simp [Heap.pushpop, heappushpop_max, heappush_max, heappush, siftdown,
      siftdownLoop, gd, flipLt, intLt]
  · simp [Heap.push, Heap.pop, adjIdx, heappush_max, heappush, siftdown,
      siftdownLoop, heappop, siftup, siftupLoop, gd, flipLt, eLt, intLt]

/-- C4 (code bug): with a key function, `extend(raw())` after `clear()` does
not reproduce the original iteration sequence.  `extend` passes
`self._add_key(o)` to `push`, which key-wraps its argument again, so the
stored entries are doubly wrapped and iteration yields `(key(x), x)` pairs
instead of the original items: for `Heap([1], key=identity)` the original
iterates to `[1]` but the round-trip iterates to `[(1, 1)]`.  (No comparisons
occur on this one-element container, so the comparison stub is irrelevant.) -/
theorem claim_C4_roundtrip_bug :
    iterKV (fun _ _ => false)
      (mkHeapKV (fun _ _ => false) (fun v => v) false [V.int 1]) =
      [V.int 1] ∧
    iterKV (fun _ _ => false)
      (extendKV (fun _ _ => false) (fun v => v)
        (Heap.clear (mkHeapKV (fun _ _ => false) (fun v => v) false [V.int 1]))
        (rawKV (mkHeapKV (fun _ _ => false) (fun v => v) false [V.int 1]))) =
      [V.pair (V.int 1) (V.int 1)] := by
  constructor
  · simp [iterKV, mkHeapKV, mkHeap, addKeyV, delKeyV, drain, heappop, heapify,
      heapifyLoop, eLt, gd]
  · simp [iterKV, mkHeapKV, mkHeap, addKeyV, delKeyV, drain, heappop, heapify,
      heapifyLoop, eLt, gd, extendKV, pushKV, rawKV, Heap.clear, heappush,
      siftdown, siftdownLoop]

/-- C5: calling `reverse()` twice restores the original orientation flag and
the container then iterates to the same sequence as before the two calls. -/
theorem claim_C5_reverse_idempotent :
    ∀ (ε : Type) [Inhabited ε] (lt : ε → ε → Bool), LtLaws lt →
    ∀ h : Heap ε, h.inv lt →
      ((h.reverseH lt).reverseH lt).max = h.max ∧
      ((h.reverseH lt).reverseH lt).iterH lt = h.iterH lt := by
  intro ε _ lt L h hI
  exact reverse_reverse_iter L h hI

theorem claim_C5_witness :
    (mkHeap intLt false [40, 30, 20]).inv intLt ∧
    (((mkHeap intLt false [40, 30, 20]).reverseH intLt).reverseH
        intLt).max = (mkHeap intLt false [40, 30, 20]).max ∧
    (((mkHeap intLt false [40, 30, 20]).reverseH intLt).reverseH
        intLt).iterH intLt = (mkHeap intLt false [40, 30, 20]).iterH intLt :=
  ⟨mkHeap_inv intLt_laws false [40, 30, 20],
    claim_C5_reverse_idempotent Int intLt intLt_laws _
      (mkHeap_inv intLt_laws false [40, 30, 20])⟩

/-- C6 (code bug): `__setitem__` and `__delitem__` validate with
`pos > len(self)` instead of `pos >= len(self)`, so on `Heap([1, 2])` setting
or deleting at index 2 (== length) raises no error: set silently discards the
new item and delete silently changes nothing, both leaving the buffer
`[1, 2]`, where the spec requires an IndexOutOfRange failure. -/
theorem claim_C6_bounds_bug :
    Heap.setItem intLt ⟨false, [1, 2]⟩ 2 5 = Except.ok ⟨false, [1, 2]⟩ ∧
    Heap.delItem intLt ⟨false, [1, 2]⟩ 2 = Except.ok ⟨false, [1, 2]⟩ := by
  constructor
  · simp [Heap.setItem, adjIdx, drain, heappop, siftup, siftupLoop,
      siftdownLoop, gd, eLt, intLt, heapify, heapifyLoop, List.enum]
  · simp [Heap.delItem, adjIdx, dropAt, drain, heappop, siftup, siftupLoop,
      siftdownLoop, gd, eLt, intLt, heapify, heapifyLoop, List.enum]

/-- C7 counterexample: `pushpop` on an empty container does not fail with an
EmptyContainer error — it returns the pushed item (here `5`) and leaves the
container empty, exactly as `heappushpop` documents. -/
theorem claim_C7_counterexample :
    Heap.pushpop false intLt ⟨false, []⟩ 5 =
      (Except.ok 5, ⟨false, []⟩) := rfl

/-- C7 (amended): `pop`, `peek` and `replace` on an empty container fail with
an error leaving the container unchanged, but `pushpop` does not raise an
empty-container error: with the min orientation, or the pure-Python max path,
it returns the pushed item and leaves the container empty; the
`C_LANGUAGE_HEAP` max path pushes the item and then raises `TypeError`. -/
theorem claim_C7_empty_behaviour :
    ∀ (ε : Type) [Inhabited ε] (lt : ε → ε → Bool) (mx cLang : Bool) (x : ε)
      (i : Int),
      Heap.pop lt ⟨mx, []⟩ i =
        Except.error "IndexError: pop from empty Heap" ∧
      Heap.peek (⟨mx, []⟩ : Heap ε) =
        Except.error "IndexError: peek on empty Heap" ∧
      Heap.replace lt ⟨mx, []⟩ x =
        Except.error "IndexError: index out of range" ∧
      Heap.pushpop cLang lt ⟨false, []⟩ x = (Except.ok x, ⟨false, []⟩) ∧
      Heap.pushpop false lt ⟨true, []⟩ x = (Except.ok x, ⟨true, []⟩) ∧
      Heap.pushpop true lt ⟨true, []⟩ x =
        (Except.error "TypeError: argument of _heappop_max is not a list",
          ⟨true, [x]⟩) := by
  intro ε _ lt mx cLang x i
  refine ⟨rfl, rfl, ?_, ?_, rfl, ?_⟩
  · cases mx <;> rfl
  · cases cLang <;> rfl
  · simp only [Heap.pushpop, if_pos rfl, heappushpop_max, if_pos rfl,
      heappush_max, heappush, siftdown, List.nil_append, Prod.mk.injEq]
    rw [siftdownLoop]
    simp [gd]

theorem claim_C7_witness :
    Heap.pop intLt ⟨false, []⟩ 0 =
      Except.error "IndexError: pop from empty Heap" ∧
    Heap.peek (⟨false, []⟩ : Heap Int) =
      Except.error "IndexError: peek on empty Heap" ∧
    Heap.replace intLt ⟨false, []⟩ 7 =
      Except.error "IndexError: index out of range" ∧
    Heap.pushpop true intLt ⟨false, []⟩ 7 = (Except.ok 7, ⟨false, []⟩) ∧
    Heap.pushpop false intLt ⟨true, []⟩ 7 = (Except.ok 7, ⟨true, []⟩) ∧
    Heap.pushpop true intLt ⟨true, []⟩ 7 =
      (Except.error "TypeError: argument of _heappop_max is not a list",
        ⟨true, [7]⟩) :=
  claim_C7_empty_behaviour Int intLt false true 7 0

/-- C8 (code bug): `Heap.index` never returns a position.  Its loop iterates
`for i, existing in self._iter_with_key():` without `enumerate`, unpacking
each drained element; on `Heap([10, 20])` the call `index(20)` raises
`TypeError` at the first iteration instead of returning position 1 as the
claim requires. -/
theorem claim_C8_index_bug :
    Heap.indexInt intLt ⟨false, [10, 20]⟩ 20 0 (-1) =
      Except.error "TypeError: cannot unpack non-iterable int object" := by
  have hd : drain (eLt intLt false) [10, 20] = [10, 20] := by
    simp [drain, heappop, siftup, siftupLoop, siftdownLoop, gd, eLt, intLt]
  unfold Heap.indexInt
  rw [show (⟨false, [10, 20]⟩ : Heap Int).max = false from rfl,
    show (⟨false, [10, 20]⟩ : Heap Int).buffer = [10, 20] from rfl, hd]

/-- C9: on every non-empty container, `peek()`, index access at position 0,
and the first element produced by iteration all return the same item — the
buffer root, which is extreme under the configured orientation (no stored
entry precedes it under the effective comparison).  All three are pure reads:
`peek` and `__getitem__(0)` only read `self._heap[0]`, and iteration drains a
copy of the buffer. -/
theorem claim_C9_peek_agreement :
    ∀ (ε : Type) [Inhabited ε] (lt : ε → ε → Bool), LtLaws lt →
    ∀ h : Heap ε, h.inv lt → h.buffer ≠ [] →
      ∃ t, h.peek = Except.ok (gd h.buffer 0) ∧
        h.getItem lt 0 = Except.ok (gd h.buffer 0) ∧
        h.iterH lt = gd h.buffer 0 :: t ∧
        ∀ a ∈ h.buffer, eLt lt h.max a (gd h.buffer 0) = false := by
  intro ε _ lt L h hI hne
  obtain ⟨t, ht⟩ := iterH_head lt h hne
  refine ⟨t, peek_eq_root h hne, getItem_zero lt h hne, ht, ?_⟩
  intro a ha
  exact heapProp_mem_le_root (eLt_laws L h.max) hI a ha

theorem claim_C9_witness :
    (⟨false, [1, 2, 3]⟩ : Heap Int).inv intLt ∧
    (⟨false, [1, 2, 3]⟩ : Heap Int).buffer ≠ [] ∧
    ∃ t, (⟨false, [1, 2, 3]⟩ : Heap Int).peek =
        Except.ok (gd (⟨false, [1, 2, 3]⟩ : Heap Int).buffer 0) ∧
      (⟨false, [1, 2, 3]⟩ : Heap Int).getItem intLt 0 =
        Except.ok (gd (⟨false, [1, 2, 3]⟩ : Heap Int).buffer 0) ∧
      (⟨false, [1, 2, 3]⟩ : Heap Int).iterH intLt =
        gd (⟨false, [1, 2, 3]⟩ : Heap Int).buffer 0 :: t ∧
      ∀ a ∈ (⟨false, [1, 2, 3]⟩ : Heap Int).buffer,
        eLt intLt (⟨false, [1, 2, 3]⟩ : Heap Int).max a
          (gd (⟨false, [1, 2, 3]⟩ : Heap Int).buffer 0) = false := by
  have hinv : (⟨false, [1, 2, 3]⟩ : Heap Int).inv intLt := by
    intro c hc0 hcl hsc
    simp only [List.length_cons, List.length_nil] at hcl
    interval_cases c <;> decide
  exact ⟨hinv, by simp,
    claim_C9_peek_agreement Int intLt intLt_laws _ hinv (by simp)⟩

/-- C10: for a container without a key function, `push(x)` increases the
length by exactly one, and the multiset `raw()` returns afterwards is the
prior multiset with `x` added — no stored element is altered or lost. -/
theorem claim_C10_push_adds :
    ∀ (ε : Type) [Inhabited ε] (lt : ε → ε → Bool) (h : Heap ε) (x : ε),
      (h.push lt x).raw.length = h.raw.length + 1 ∧
      (h.push lt x).raw.Perm (x :: h.raw) := by
  intro ε _ lt h x
  have hperm : (h.push lt x).buffer.Perm (x :: h.buffer) :=
    (push_perm lt h x).trans (List.perm_append_singleton x h.buffer)
  rw [raw_eq_buffer, raw_eq_buffer]
  exact ⟨by rw [hperm.length_eq]; rfl, hperm⟩

theorem claim_C10_witness :
    ((⟨false, [1, 3]⟩ : Heap Int).push intLt 2).raw.length = 3 ∧
    ((⟨false, [1, 3]⟩ : Heap Int).push intLt 2).raw.Perm [2, 1, 3] :=
  claim_C10_push_adds Int intLt ⟨false, [1, 3]⟩ 2
